import Mathlib

/-!
Handel aggregation: level partitioning and priorities.

Shallow embedding of `handel/handel.go` (package `handel` of the HotStuff
repository) together with the properties of `rangeLevel`,
`verificationPriority`, `contributionPriority`, `session.score`, `newSession`
and `Init`.

Conventions of the embedding:

* Go `int` / `int64` values are `Int`.  The only place where 64-bit wrap-around
  can occur is `seed + int64(level)`, which is wrapped explicitly.
* `hotstuff.ID` (`type ID uint32`) is `Nat`.
* A Go `panic` is `Except.error`.
* A Go `map[hotstuff.ID]int` is a function `ID → Option Int`.
* `int(math.Ceil(math.Log2(float64(n))))` is the integer ceiling of the binary
  logarithm, `ceilLog2 n`, for `n ≥ 1` (Go's `math.Log2` is exact on powers of
  two and the lengths of ID slices are far below the range where rounding of the
  floating-point logarithm could reach an integer).
-/

namespace handel

/-- Replica identifiers, `type ID uint32` in `hotstuff.go`. -/
abbrev ID := Nat

/-! ## `maxLevel` -/

/-- Linear search for the least `k` with `n ≤ 2 ^ k`, starting at `k`. -/
def ceilLog2Aux (n : Nat) : Nat → Nat → Nat
  | 0, k => k
  | fuel + 1, k => if n ≤ 2 ^ k then k else ceilLog2Aux n fuel (k + 1)

/-- The integer `⌈log₂ n⌉` for `n ≥ 1` (and `0` for `n = 0`). -/
def ceilLog2 (n : Nat) : Nat := ceilLog2Aux n n 0

/-- The expression `int(math.Ceil(math.Log2(float64(len))))`.  For `len = 0`
the logarithm is `-Inf`, whose conversion to `int` yields the most negative
64-bit integer on the supported platforms. -/
def maxLevelOf (len : Nat) : Int :=
  if len = 0 then -(2 ^ 63 : Int) else (ceilLog2 len : Int)

/-! ## `rangeLevel` -/

/-- The search loop at the top of `rangeLevel`: the index of the first
occurrence of `id`, scanning from index `i`, or `-1` when there is none. -/
def findSelfFrom (id : ID) : List ID → Int → Int
  | [], _ => -1
  | v :: vs, i => if id = v then i else findSelfFrom id vs (i + 1)

/-- The value of `selfIndex` after the search loop of `rangeLevel`. -/
def findSelf (ids : List ID) (id : ID) : Int := findSelfFrom id ids 0

/-- The bisection loop of `rangeLevel`,
`for curLevel := maxLevel; curLevel >= level; curLevel--`.
The first argument is the number of iterations still to run; `curLevel`, `min`
and `max` are the loop variables. -/
def rangeLoop (selfIndex level : Int) : Nat → Int → Int → Int → Int × Int
  | 0, _, min, max => (min, max)
  | k + 1, curLevel, min, max =>
    let mid := Int.tdiv (min + max) 2
    if curLevel = level then
      -- at the target level: the half not containing the self
      if selfIndex > mid then rangeLoop selfIndex level k (curLevel - 1) min mid
      else rangeLoop selfIndex level k (curLevel - 1) (mid + 1) max
    else
      -- otherwise: the half containing the self
      if selfIndex > mid then rangeLoop selfIndex level k (curLevel - 1) (mid + 1) max
      else rangeLoop selfIndex level k (curLevel - 1) min mid

/-- The function `rangeLevel(ids, id, level) (min, max)`.  The loop runs for
`curLevel = maxLevel, maxLevel - 1, …, level`, that is `maxLevel - level + 1`
times. -/
def rangeLevel (ids : List ID) (id : ID) (level : Int) : Except String (Int × Int) :=
  let selfIndex := findSelf ids id
  let maxLevel := maxLevelOf ids.length
  if level < 0 ∨ level > maxLevel then
    Except.error "handel: invalid level"
  else
    Except.ok (rangeLoop selfIndex level (maxLevel - level + 1).toNat maxLevel 0
      ((ids.length : Int) - 1))

/-! ## Priorities -/

/-- A Go map `map[hotstuff.ID]int`: `none` for a key that is not in the map. -/
abbrev PriorityMap := ID → Option Int

/-- The fresh map `make(map[hotstuff.ID]int)`. -/
def PriorityMap.empty : PriorityMap := fun _ => none

/-- The assignment `m[k] = v`. -/
def PriorityMap.set (m : PriorityMap) (k : ID) (v : Int) : PriorityMap :=
  fun x => if x = k then some v else m x

/-- The read `m[k]`, which yields the zero value for a key not in the map. -/
def PriorityMap.get (m : PriorityMap) (k : ID) : Int := (m k).getD 0

/-- Addition of `int64` values wraps around modulo `2 ^ 64`. -/
def wrapInt64 (x : Int) : Int := (x + 2 ^ 63) % 2 ^ 64 - 2 ^ 63

/-- The seeded shuffle `rand.New(rand.NewSource(seed)).Shuffle(len(xs),
reflect.Swapper(xs))` of the standard library, as a function of the seed and
the slice. -/
abbrev Shuffler := (α : Type) → Int → List α → List α

/-- The shuffle rearranges its slice. -/
def Shuffler.Permutes (sh : Shuffler) : Prop :=
  ∀ (α : Type) (seed : Int) (xs : List α), (sh α seed xs).Perm xs

/-- The loop `for _, id := range ids` of `verificationPriority`, with loop
variable `i` and the map built so far.  Reading `numbers[i]` past the end of
the slice panics. -/
def assignLoop (self : ID) (numbers : List Int) : List ID → Nat → PriorityMap →
    Except String PriorityMap
  | [], _, vp => Except.ok vp
  | id :: rest, i, vp =>
    if id = self then assignLoop self numbers rest i vp
    else
      match numbers.get? i with
      | none => Except.error "index out of range"
      | some x => assignLoop self numbers rest (i + 1) (vp.set id x)

/-- The function `verificationPriority(ids, seed, self, level)`.
`make([]int, len(ids)-1)` panics for an empty `ids`. -/
def verificationPriority (sh : Shuffler) (ids : List ID) (seed : Int) (self : ID)
    (level : Int) : Except String PriorityMap :=
  if ids.length = 0 then Except.error "makeslice: len out of range"
  else
    let numbers := (List.range (ids.length - 1)).map Int.ofNat
    let numbers := sh Int (wrapInt64 (seed + level)) numbers
    assignLoop self numbers ids 0 PriorityMap.empty

/-- The loop `for _, id := range ids` of `contributionPriority`, with the map
built so far. -/
def contributionLoop (sh : Shuffler) (ids : List ID) (seed : Int) (self : ID) (level : Int) :
    List ID → PriorityMap → Except String PriorityMap
  | [], cp => Except.ok cp
  | id :: rest, cp =>
    if id = self then contributionLoop sh ids seed self level rest cp
    else
      match verificationPriority sh ids seed id level with
      | Except.error e => Except.error e
      | Except.ok vp => contributionLoop sh ids seed self level rest (cp.set id (vp.get self))

/-- The function `contributionPriority(ids, seed, self, level)`. -/
def contributionPriority (sh : Shuffler) (ids : List ID) (seed : Int) (self : ID)
    (level : Int) : Except String PriorityMap :=
  contributionLoop sh ids seed self level ids PriorityMap.empty

/-! ## Sessions and scoring -/

/-- Modelled from the spec: the type `bls12.AggregateSignature`, which is not
among the sources; an aggregate signature is represented by the set of signer
indices it covers (its bitmask). -/
structure AggregateSignature where
  participants : List Nat

/-- Modelled from the spec: the message type `handelpb.Contribution`, which is
not among the sources; it carries the level number (read by `GetLevel`) and the
aggregate signature with its bitmask. -/
structure Contribution where
  level : Int
  signature : AggregateSignature

/-- The struct `level` (the field `in` is written `in_`; `startTime` is left
out). -/
structure level where
  vp : PriorityMap
  cp : PriorityMap
  in_ : AggregateSignature
  out : AggregateSignature
  pending : ID → Option AggregateSignature
  window : Int

/-- Hashes, `consensus.Hash`: an array of 32 bytes. -/
abbrev Hash := Fin 32 → Fin 256

/-- Modelled from the spec: the transport module `backend.Server`, which is not
among the sources, reduced to whether the inbound Handel handler has been
registered on its gorums server. -/
structure Server where
  handelRegistered : Bool

/-- Modelled from the spec: the configuration module `backend.Config`, which is
not among the sources, reduced to a handle of its raw configuration. -/
structure Config where
  rawConfiguration : Nat

/-- Modelled from the spec: the module registry `consensus.Modules`, which is
not among the sources.  `server` and `config` are what `GetModuleByType` finds
(`none` when it returns `false`), `replicas` holds the keys of
`Configuration().Replicas()` (so `Configuration().Len()` is its length), and
`sharedRandomSeed` is `Options().SharedRandomSeed()`. -/
structure Modules where
  server : Option Server
  config : Option Config
  replicas : List ID
  sharedRandomSeed : Int

/-- The struct `Handel`.  `cfg` is `none` for a nil pointer; of the map
`sessions` only the set of keys is kept (`none` for a nil map), its values
point back to the `Handel`. -/
structure Handel where
  mods : Modules
  cfg : Option Nat
  maxLevel : Int
  sessions : Option (List Hash)

/-- The struct `session`. -/
structure session where
  h : Handel
  seed : Int
  ids : List ID
  levels : List level

/-- The method `session.score`.  Its body consists of the invalid-level guard
only: for a level within `[1, maxLevel]` control reaches the end of the body
without a `return` statement, so no value is produced (`none`). -/
def session.score (s : session) (contribution : Contribution) : Option Int :=
  if contribution.level < 1 ∨ contribution.level > s.h.maxLevel then
    -- invalid level
    some 0
  else
    none

/-- The method `Handel.Init`.  The result is the returned error (`none` for
`nil`) together with the state of the module afterwards; registering the
inbound handler changes the server held by the registry. -/
def Handel.Init (h : Handel) : Option String × Handel :=
  -- h.sessions = make(map[consensus.Hash]*session)
  let h1 := Handel.mk h.mods h.cfg h.maxLevel (some [])
  match h1.mods.server with
  | none => (some "could not get gorums server", h1)
  | some _ =>
    match h1.mods.config with
    | none => (some "could not get gorums configuration", h1)
    | some cfg =>
      -- handelpb.RegisterHandelServer(srv.GetGorumsServer(), serviceImpl{h})
      let mods := Modules.mk (some (Server.mk true)) h1.mods.config h1.mods.replicas
        h1.mods.sharedRandomSeed
      -- h.cfg = ...; h.maxLevel = int(math.Ceil(math.Log2(float64(Len()))))
      (none, Handel.mk mods (some cfg.rawConfiguration) (maxLevelOf h1.mods.replicas.length)
        h1.sessions)

/-- The value `binary.LittleEndian.Uint64(hash[:])`: the first eight bytes of
the hash, least significant first. -/
def leUint64 (hash : Hash) : Nat :=
  (hash 0).val + (hash 1).val * 2 ^ 8 + (hash 2).val * 2 ^ 16 + (hash 3).val * 2 ^ 24 +
    (hash 4).val * 2 ^ 32 + (hash 5).val * 2 ^ 40 + (hash 6).val * 2 ^ 48 +
    (hash 7).val * 2 ^ 56

/-- The method `Handel.newSession`.  `iter` is the order in which ranging over
the map `Configuration().Replicas()` yields its keys.  `sort.Slice` with the
comparison `<` leaves the ids in ascending order.  The field `levels` is never
assigned and stays nil. -/
def Handel.newSession (sh : Shuffler) (h : Handel) (iter : List ID) (hash : Hash) : session :=
  -- the conversion int64(...) and the addition both wrap around
  let seed := wrapInt64 (h.mods.sharedRandomSeed + wrapInt64 (leUint64 hash))
  let ids := iter
  let ids := ids.insertionSort (· ≤ ·)
  let ids := sh ID seed ids
  session.mk h seed ids []

/-- A registry with both modules and four replicas, for concrete inputs. -/
def exampleModules : Modules :=
  Modules.mk (some (Server.mk false)) (some (Config.mk 0)) [10, 20, 30, 40] 5

/-- A module before `Init`, with `maxLevel` set to `m`. -/
def exampleHandel (m : Int) : Handel := Handel.mk exampleModules none m none

/-- A hash whose bytes are `1, 2, 0, 0, …`. -/
def exampleHash : Hash := fun i => if i.val = 0 then 1 else if i.val = 1 then 2 else 0

/-- The hash `exampleHash` with its ninth byte changed to `9`. -/
def exampleHashTail : Hash :=
  fun i => if i.val = 0 then 1 else if i.val = 1 then 2 else if i.val = 8 then 9 else 0

/-- A hash whose bytes are `2, 1, 0, 0, …`: the first two bytes of
`exampleHash` exchanged. -/
def exampleHashSwapped : Hash := fun i => if i.val = 0 then 2 else if i.val = 1 then 1 else 0

/-- A shuffle used to evaluate the priorities on concrete inputs: it reverses
the slice. -/
def reverseShuffle : Shuffler := fun _ _ xs => xs.reverse

/-! ## Definitions used in the proofs -/

/-- One bisection step keeping the half of `r` that contains index `s`. -/
def keepHalf (s : Int) (r : Int × Int) : Int × Int :=
  if s > Int.tdiv (r.1 + r.2) 2 then (Int.tdiv (r.1 + r.2) 2 + 1, r.2)
  else (r.1, Int.tdiv (r.1 + r.2) 2)

/-- One bisection step keeping the half of `r` that does not contain index `s`. -/
def otherHalf (s : Int) (r : Int × Int) : Int × Int :=
  if s > Int.tdiv (r.1 + r.2) 2 then (r.1, Int.tdiv (r.1 + r.2) 2)
  else (Int.tdiv (r.1 + r.2) 2 + 1, r.2)

/-- Membership of an index in a closed range `(min, max)`; a range with
`min > max` has no member. -/
def inRange (r : Int × Int) (i : Int) : Prop := r.1 ≤ i ∧ i ≤ r.2

instance (r : Int × Int) (i : Int) : Decidable (inRange r i) := by
  unfold inRange; infer_instance

/-- The range reached after `j` bisections that keep the half containing `s`. -/
def selfRange (n : Nat) (s : Int) (j : Nat) : Int × Int :=
  (keepHalf s)^[j] (0, (n : Int) - 1)

/-- The ids other than `self`, in slice order. -/
def peersOf (self : ID) (ids : List ID) : List ID := ids.filter (· != self)

/-- Assigning the numbers to the peers one by one. -/
def assignAll : List ID → List Int → PriorityMap → PriorityMap
  | [], _, vp => vp
  | _ :: _, [], vp => vp
  | p :: ps, v :: vs, vp => assignAll ps vs (vp.set p v)

/-- The slice `numbers` of `verificationPriority` after the shuffle. -/
def shuffledNumbers (sh : Shuffler) (n : Nat) (seed level : Int) : List Int :=
  sh Int (wrapInt64 (seed + level)) ((List.range (n - 1)).map Int.ofNat)

/-- The map `verificationPriority` computes for `id` on a well-formed input. -/
def vpOf (sh : Shuffler) (ids : List ID) (seed : Int) (id : ID) (level : Int) : PriorityMap :=
  assignAll (peersOf id ids) (shuffledNumbers sh ids.length seed level) PriorityMap.empty

/-- Setting, for every peer in turn, its entry to that peer's verification
priority of `self`. -/
def contributeAll (sh : Shuffler) (ids : List ID) (seed : Int) (self : ID) (level : Int) :
    List ID → PriorityMap → PriorityMap
  | [], cp => cp
  | id :: rest, cp =>
    if id = self then contributeAll sh ids seed self level rest cp
    else contributeAll sh ids seed self level rest
      (cp.set id ((vpOf sh ids seed id level).get self))

/-! ## Auxiliary facts: `ceilLog2` -/

theorem ceilLog2Aux_spec (n : Nat) : ∀ (fuel k : Nat), (∀ j, j < k → 2 ^ j < n) → n ≤ k + fuel →
    n ≤ 2 ^ ceilLog2Aux n fuel k ∧ ∀ j, j < ceilLog2Aux n fuel k → 2 ^ j < n := by
  intro fuel
  induction fuel with
  | zero =>
    intro k hlow hk
    refine ⟨?_, hlow⟩
    have h2 : k < 2 ^ k := Nat.lt_two_pow k
    simp only [ceilLog2Aux]
    omega
  | succ f ih =>
    intro k hlow hk
    simp only [ceilLog2Aux]
    by_cases h : n ≤ 2 ^ k
    · rw [if_pos h]
      exact ⟨h, hlow⟩
    · rw [if_neg h]
      apply ih
      · intro j hj
        rcases Nat.lt_succ_iff_lt_or_eq.mp hj with hj | hj
        · exact hlow j hj
        · subst hj; omega
      · omega

theorem le_two_pow_ceilLog2 (n : Nat) : n ≤ 2 ^ ceilLog2 n :=
  (ceilLog2Aux_spec n n 0 (by intro j hj; omega) (by omega)).1

theorem two_pow_lt_of_lt_ceilLog2 (n j : Nat) (hj : j < ceilLog2 n) : 2 ^ j < n :=
  (ceilLog2Aux_spec n n 0 (by intro j hj; omega) (by omega)).2 j hj

/-- The search `ceilLog2` computes Mathlib's ceiling logarithm in base two. -/
theorem ceilLog2_eq_clog (n : Nat) : ceilLog2 n = Nat.clog 2 n := by
  apply le_antisymm
  · by_contra h
    push_neg at h
    have h1 := two_pow_lt_of_lt_ceilLog2 n _ h
    have h2 := Nat.le_pow_clog (by norm_num : 1 < 2) n
    omega
  · exact (Nat.le_pow_iff_clog_le (by norm_num : 1 < 2)).mp (le_two_pow_ceilLog2 n)

theorem maxLevelOf_pos_len (n : Nat) (hn : n ≠ 0) : maxLevelOf n = (ceilLog2 n : Int) := by
  simp [maxLevelOf, hn]

/-! ## Auxiliary facts: the search for `selfIndex` -/

theorem findSelfFrom_absent (id : ID) : ∀ (ids : List ID) (i : Int), id ∉ ids →
    findSelfFrom id ids i = -1 := by
  intro ids
  induction ids with
  | nil => intro i _; rfl
  | cons v vs ih =>
    intro i h
    have h1 : id ≠ v := fun e => h (by simp [e])
    have h2 : id ∉ vs := fun e => h (by simp [e])
    simp only [findSelfFrom, h1, if_false]
    exact ih _ h2

theorem findSelfFrom_present (id : ID) : ∀ (ids : List ID) (i : Int), id ∈ ids →
    findSelfFrom id ids i = i + (ids.indexOf id : Int) := by
  intro ids
  induction ids with
  | nil => intro i h; simp at h
  | cons v vs ih =>
    intro i h
    by_cases e : id = v
    · subst e
      simp [findSelfFrom]
    · have h2 : id ∈ vs := by
        rcases List.mem_cons.mp h with h | h
        · exact absurd h e
        · exact h
      have e2 : v ≠ id := fun x => e x.symm
      simp only [findSelfFrom, e, if_false]
      rw [ih _ h2, List.indexOf_cons_ne _ e2]
      push_cast
      ring

theorem findSelf_absent (ids : List ID) (id : ID) (h : id ∉ ids) : findSelf ids id = -1 :=
  findSelfFrom_absent id ids 0 h

theorem findSelf_present (ids : List ID) (id : ID) (h : id ∈ ids) :
    findSelf ids id = (ids.indexOf id : Int) := by
  simp [findSelf, findSelfFrom_present id ids 0 h]

/-- In a duplicate-free list the search finds the position of `self`. -/
theorem findSelf_of_getElem? (ids : List ID) (self : ID) (s : Nat) (hnd : ids.Nodup)
    (hs : ids[s]? = some self) : findSelf ids self = (s : Int) := by
  obtain ⟨hlt, hget⟩ := List.getElem?_eq_some.mp hs
  have hmem : self ∈ ids := by rw [← hget]; exact List.getElem_mem hlt
  rw [findSelf_present ids self hmem, ← hget, List.indexOf_getElem hnd s hlt]

/-! ## Auxiliary facts: the bisection -/

/-- The loop keeps the half containing `s` on every iteration but the last,
where it keeps the other half. -/
theorem rangeLoop_eq (s level : Int) : ∀ (k : Nat) (cur mn mx : Int), cur = level + k →
    rangeLoop s level (k + 1) cur mn mx = otherHalf s ((keepHalf s)^[k] (mn, mx)) := by
  intro k
  induction k with
  | zero =>
    intro cur mn mx h
    have h0 : cur = level := by simpa using h
    simp only [rangeLoop, h0, if_true, Function.iterate_zero, id_eq, otherHalf]
  | succ k ih =>
    intro cur mn mx h
    have hne : cur ≠ level := by push_cast at h; omega
    have hcur : cur - 1 = level + k := by push_cast at h; omega
    rw [Function.iterate_succ_apply]
    rw [rangeLoop]
    simp only [hne, if_false]
    unfold keepHalf
    split
    · exact ih _ _ _ hcur
    · exact ih _ _ _ hcur

/-- The value of `rangeLevel` for a level within `[0, maxLevel]`. -/
theorem rangeLevel_eq (ids : List ID) (id : ID) (hne : ids ≠ []) (j L : Nat)
    (hL : L + j = ceilLog2 ids.length) :
    rangeLevel ids id (L : Int) =
      Except.ok (otherHalf (findSelf ids id) ((keepHalf (findSelf ids id))^[j]
        (0, (ids.length : Int) - 1))) := by
  have hlen : ids.length ≠ 0 := by simpa using hne
  have hM : maxLevelOf ids.length = (L : Int) + j := by
    rw [maxLevelOf_pos_len _ hlen, ← hL]; push_cast; ring
  have hguard : ¬ ((L : Int) < 0 ∨ (L : Int) > maxLevelOf ids.length) := by
    rw [hM]; omega
  have hk : (maxLevelOf ids.length - (L : Int) + 1).toNat = j + 1 := by
    rw [hM]; omega
  simp only [rangeLevel, hguard, if_false, hk]
  rw [rangeLoop_eq _ _ j _ _ _ hM]

theorem selfRange_succ (n : Nat) (s : Int) (j : Nat) :
    selfRange n s (j + 1) = keepHalf s (selfRange n s j) := by
  simp only [selfRange, Function.iterate_succ_apply']

theorem tdiv_two (a b : Int) (h : 0 ≤ a + b) : Int.tdiv (a + b) 2 = (a + b) / 2 :=
  Int.tdiv_eq_ediv h (by norm_num)

theorem keepHalf_spec (s : Int) (r : Int × Int) (h0 : 0 ≤ r.1) (h1 : r.1 ≤ s) (h2 : s ≤ r.2) :
    r.1 ≤ (keepHalf s r).1 ∧ (keepHalf s r).1 ≤ s ∧ s ≤ (keepHalf s r).2 ∧
      (keepHalf s r).2 ≤ r.2 ∧
      ∀ e : Int, r.2 - r.1 + 1 ≤ 2 * e → (keepHalf s r).2 - (keepHalf s r).1 + 1 ≤ e := by
  have hd := tdiv_two r.1 r.2 (by omega)
  unfold keepHalf
  rw [hd]
  split
  · refine ⟨?_, ?_, ?_, ?_, ?_⟩ <;> simp only <;> omega
  · refine ⟨?_, ?_, ?_, ?_, ?_⟩ <;> simp only <;> omega

/-- The two halves of a range containing `s` split it, and `s` is in the kept
half only. -/
theorem halves_spec (s : Int) (r : Int × Int) (h0 : 0 ≤ r.1) (h1 : r.1 ≤ s) (h2 : s ≤ r.2)
    (i : Int) :
    (inRange r i ↔ inRange (keepHalf s r) i ∨ inRange (otherHalf s r) i) ∧
      ¬ (inRange (keepHalf s r) i ∧ inRange (otherHalf s r) i) ∧
      ¬ inRange (otherHalf s r) s := by
  have hd := tdiv_two r.1 r.2 (by omega)
  unfold keepHalf otherHalf inRange
  rw [hd]
  split
  · refine ⟨?_, ?_, ?_⟩ <;> simp only <;> omega
  · refine ⟨?_, ?_, ?_⟩ <;> simp only <;> omega

/-- Invariant of the bisection: the kept range stays inside `[0, n-1]`,
contains `s`, and after `j` of `m` steps holds at most `2 ^ (m - j)` indices. -/
theorem selfRange_inv (n : Nat) (s : Int) (h0 : 0 ≤ s) (hn : s < n) : ∀ j : Nat,
    0 ≤ (selfRange n s j).1 ∧ (selfRange n s j).1 ≤ s ∧ s ≤ (selfRange n s j).2 ∧
      (selfRange n s j).2 ≤ (n : Int) - 1 ∧
      ∀ e : Nat, n ≤ 2 ^ (j + e) →
        (selfRange n s j).2 - (selfRange n s j).1 + 1 ≤ ((2 ^ e : Nat) : Int) := by
  intro j
  induction j with
  | zero =>
    refine ⟨by simp [selfRange], by simpa [selfRange] using h0, ?_, by simp [selfRange], ?_⟩
    · simp only [selfRange, Function.iterate_zero, id_eq]; omega
    · intro e he
      simp only [selfRange, Function.iterate_zero, id_eq, Nat.zero_add] at he ⊢
      have : (n : Int) ≤ ((2 ^ e : Nat) : Int) := by exact_mod_cast he
      omega
  | succ j ih =>
    obtain ⟨a, b, c, d, hsz⟩ := ih
    obtain ⟨a', b', c', d', hsz'⟩ := keepHalf_spec s (selfRange n s j) a b c
    rw [selfRange_succ]
    refine ⟨by omega, b', c', by omega, ?_⟩
    intro e he
    apply hsz'
    have hexp : j + (e + 1) = j + 1 + e := by omega
    have h := hsz (e + 1) (by rw [hexp]; exact he)
    have h2 : ((2 ^ (e + 1) : Nat) : Int) = 2 * ((2 ^ e : Nat) : Int) := by
      push_cast; ring
    omega

/-- After `⌈log₂ n⌉` bisections only `s` itself is left. -/
theorem selfRange_final (n : Nat) (s : Int) (h0 : 0 ≤ s) (hn : s < n) :
    selfRange n s (ceilLog2 n) = (s, s) := by
  obtain ⟨_, b, c, _, hsz⟩ := selfRange_inv n s h0 hn (ceilLog2 n)
  have h := hsz 0 (by simpa using le_two_pow_ceilLog2 n)
  have h1 : ((2 ^ 0 : Nat) : Int) = 1 := by norm_num
  apply Prod.ext <;> simp only <;> omega

/-- The kept ranges are nested. -/
theorem selfRange_nested (n : Nat) (s : Int) (h0 : 0 ≤ s) (hn : s < n) (i : Int) (j : Nat) :
    ∀ d : Nat, inRange (selfRange n s (j + d)) i → inRange (selfRange n s j) i := by
  intro d
  induction d with
  | zero => intro h; exact h
  | succ d ih =>
    intro h
    apply ih
    obtain ⟨a, b, c, _, _⟩ := selfRange_inv n s h0 hn (j + d)
    have hk : j + (d + 1) = (j + d) + 1 := by omega
    rw [hk, selfRange_succ] at h
    exact (halves_spec s _ a b c i).1.mpr (Or.inl h)

/-- An index of the initial range is, after `j` bisections, either still in
the kept range or in the half discarded by one of the bisections so far. -/
theorem selfRange_cover (n : Nat) (s : Int) (h0 : 0 ≤ s) (hn : s < n) (i : Int)
    (hi : inRange (selfRange n s 0) i) : ∀ j : Nat,
    inRange (selfRange n s j) i ∨
      ∃ k, k < j ∧ inRange (otherHalf s (selfRange n s k)) i := by
  intro j
  induction j with
  | zero => exact Or.inl hi
  | succ j ih =>
    rcases ih with h | ⟨k, hk, h⟩
    · obtain ⟨a, b, c, _, _⟩ := selfRange_inv n s h0 hn j
      rcases (halves_spec s _ a b c i).1.mp h with h | h
      · left; rw [selfRange_succ]; exact h
      · right; exact ⟨j, by omega, h⟩
    · right; exact ⟨k, by omega, h⟩

/-- The value of `rangeLevel` at level `L = maxLevel - j`: the half discarded
by bisection number `j + 1`. -/
theorem rangeLevel_eq_otherHalf (ids : List ID) (id : ID) (hne : ids ≠ []) (j L : Nat)
    (hL : L + j = ceilLog2 ids.length) :
    rangeLevel ids id (L : Int) =
      Except.ok (otherHalf (findSelf ids id) (selfRange ids.length (findSelf ids id) j)) := by
  rw [rangeLevel_eq ids id hne j L hL, selfRange]

/-- The halves discarded by two different bisections share no index. -/
theorem otherHalf_disjoint (n : Nat) (s : Int) (h0 : 0 ≤ s) (hn : s < n) (j k : Nat)
    (hjk : j < k) (i : Int) :
    ¬ (inRange (otherHalf s (selfRange n s j)) i ∧
        inRange (otherHalf s (selfRange n s k)) i) := by
  rintro ⟨h1, h2⟩
  obtain ⟨a, b, c, _, _⟩ := selfRange_inv n s h0 hn j
  obtain ⟨a', b', c', _, _⟩ := selfRange_inv n s h0 hn k
  have h3 : inRange (selfRange n s k) i := (halves_spec s _ a' b' c' i).1.mpr (Or.inr h2)
  have hk : k = (j + 1) + (k - (j + 1)) := by omega
  rw [hk] at h3
  have h4 := selfRange_nested n s h0 hn i (j + 1) _ h3
  rw [selfRange_succ] at h4
  exact (halves_spec s _ a b c i).2.1 ⟨h4, h1⟩

/-- No discarded half contains `s`. -/
theorem otherHalf_not_self (n : Nat) (s : Int) (h0 : 0 ≤ s) (hn : s < n) (j : Nat) :
    ¬ inRange (otherHalf s (selfRange n s j)) s := by
  obtain ⟨a, b, c, _, _⟩ := selfRange_inv n s h0 hn j
  exact (halves_spec s _ a b c s).2.2

/-! ## Auxiliary facts: the assignment loop of `verificationPriority` -/

theorem mem_peersOf (self : ID) (ids : List ID) (x : ID) :
    x ∈ peersOf self ids ↔ x ∈ ids ∧ x ≠ self := by
  simp [peersOf]

theorem peersOf_nodup (self : ID) (ids : List ID) (hnd : ids.Nodup) : (peersOf self ids).Nodup :=
  hnd.filter _

theorem peersOf_length (self : ID) (ids : List ID) (hnd : ids.Nodup) (hself : self ∈ ids) :
    (peersOf self ids).length = ids.length - 1 := by
  rw [peersOf, ← hnd.erase_eq_filter self, List.length_erase_of_mem hself]

theorem peersOf_cons_self (self : ID) (rest : List ID) :
    peersOf self (self :: rest) = peersOf self rest := by
  simp [peersOf]

theorem peersOf_cons_ne (self id : ID) (rest : List ID) (h : id ≠ self) :
    peersOf self (id :: rest) = id :: peersOf self rest := by
  simp [peersOf, h]

/-- The loop does not panic when there are enough numbers, and then assigns
them to the peers in order. -/
theorem assignLoop_eq (self : ID) (numbers : List Int) : ∀ (rest : List ID) (i : Nat)
    (vp : PriorityMap), (peersOf self rest).length + i ≤ numbers.length →
    assignLoop self numbers rest i vp =
      Except.ok (assignAll (peersOf self rest) (numbers.drop i) vp) := by
  intro rest
  induction rest with
  | nil => intro i vp _; simp [assignLoop, peersOf, assignAll]
  | cons id rest ih =>
    intro i vp h
    by_cases e : id = self
    · subst e
      rw [peersOf_cons_self] at h ⊢
      simp only [assignLoop, if_true]
      exact ih i vp h
    · rw [peersOf_cons_ne self id rest e] at h ⊢
      have hi : i < numbers.length := by simp only [List.length_cons] at h; omega
      simp only [assignLoop, e, if_false, List.get?_eq_getElem?, List.getElem?_eq_getElem hi]
      rw [ih (i + 1) _ (by simp only [List.length_cons] at h; omega),
        List.drop_eq_getElem_cons hi, assignAll]

theorem assignAll_of_not_mem : ∀ (peers : List ID) (nums : List Int) (vp : PriorityMap)
    (x : ID), x ∉ peers → assignAll peers nums vp x = vp x := by
  intro peers
  induction peers with
  | nil => intro nums vp x _; rfl
  | cons p ps ih =>
    intro nums vp x hx
    cases nums with
    | nil => rfl
    | cons v vs =>
      have h1 : x ≠ p := fun e => hx (by simp [e])
      have h2 : x ∉ ps := fun e => hx (by simp [e])
      rw [assignAll, ih vs _ x h2]
      simp [PriorityMap.set, h1]

theorem assignAll_getElem? : ∀ (peers : List ID) (nums : List Int) (vp : PriorityMap)
    (k : Nat) (p : ID) (v : Int), peers.Nodup → peers[k]? = some p → nums[k]? = some v →
    assignAll peers nums vp p = some v := by
  intro peers
  induction peers with
  | nil => intro nums vp k p v _ hp _; simp at hp
  | cons q qs ih =>
    intro nums vp k p v hnd hp hv
    cases nums with
    | nil => simp at hv
    | cons w ws =>
      rw [assignAll]
      have hq : q ∉ qs := (List.nodup_cons.mp hnd).1
      cases k with
      | zero =>
        simp only [List.getElem?_cons_zero, Option.some.injEq] at hp hv
        subst hp hv
        rw [assignAll_of_not_mem qs ws _ q hq]
        simp [PriorityMap.set]
      | succ k =>
        simp only [List.getElem?_cons_succ] at hp hv
        exact ih ws _ k p v (List.nodup_cons.mp hnd).2 hp hv

theorem shuffledNumbers_perm (sh : Shuffler) (hsh : sh.Permutes) (n : Nat) (seed level : Int) :
    (shuffledNumbers sh n seed level).Perm ((List.range (n - 1)).map Int.ofNat) :=
  hsh Int _ _

theorem shuffledNumbers_length (sh : Shuffler) (hsh : sh.Permutes) (n : Nat)
    (seed level : Int) : (shuffledNumbers sh n seed level).length = n - 1 := by
  rw [(shuffledNumbers_perm sh hsh n seed level).length_eq]; simp

theorem shuffledNumbers_nodup (sh : Shuffler) (hsh : sh.Permutes) (n : Nat)
    (seed level : Int) : (shuffledNumbers sh n seed level).Nodup := by
  rw [(shuffledNumbers_perm sh hsh n seed level).nodup_iff]
  exact (List.nodup_range _).map (fun a b h => by simpa using h)

theorem mem_shuffledNumbers (sh : Shuffler) (hsh : sh.Permutes) (n : Nat) (seed level : Int)
    (r : Int) : r ∈ shuffledNumbers sh n seed level ↔ 0 ≤ r ∧ r ≤ (n : Int) - 2 ∧ 1 ≤ n := by
  rw [(shuffledNumbers_perm sh hsh n seed level).mem_iff]
  simp only [List.mem_map, List.mem_range]
  constructor
  · rintro ⟨a, ha, rfl⟩
    simp only [Int.ofNat_eq_coe]
    omega
  · rintro ⟨h0, h1, h2⟩
    exact ⟨r.toNat, by omega, by simp only [Int.ofNat_eq_coe]; omega⟩

/-- The value of `verificationPriority` on a duplicate-free list holding
`self`: no panic, and the shuffled numbers assigned to the peers in order. -/
theorem verificationPriority_eq (sh : Shuffler) (hsh : sh.Permutes) (ids : List ID)
    (seed : Int) (self : ID) (level : Int) (hnd : ids.Nodup) (hself : self ∈ ids) :
    verificationPriority sh ids seed self level =
      Except.ok (assignAll (peersOf self ids) (shuffledNumbers sh ids.length seed level)
        PriorityMap.empty) := by
  have hlen : ids.length ≠ 0 := by
    intro h; rw [List.length_eq_zero] at h; subst h; simp at hself
  simp only [verificationPriority, hlen, if_false]
  have h := assignLoop_eq self (shuffledNumbers sh ids.length seed level) ids 0
    PriorityMap.empty (by
      rw [peersOf_length self ids hnd hself, shuffledNumbers_length sh hsh]; omega)
  simpa [shuffledNumbers] using h

theorem nodup_getElem?_inj {α : Type} (l : List α) (hnd : l.Nodup) (a b : Nat) (x : α)
    (ha : l[a]? = some x) (hb : l[b]? = some x) : a = b := by
  obtain ⟨ha1, ha2⟩ := List.getElem?_eq_some.mp ha
  obtain ⟨hb1, hb2⟩ := List.getElem?_eq_some.mp hb
  exact (hnd.getElem_inj_iff).mp (ha2.trans hb2.symm)

/-- Every peer receives the number at its own position. -/
theorem assignAll_mem (peers : List ID) (nums : List Int) (vp : PriorityMap)
    (hnd : peers.Nodup) (hlen : peers.length = nums.length) (p : ID) (hp : p ∈ peers) :
    ∃ (k : Nat) (v : Int), peers[k]? = some p ∧ nums[k]? = some v ∧
      assignAll peers nums vp p = some v := by
  obtain ⟨k, hk⟩ := List.mem_iff_getElem?.mp hp
  have hlt : k < nums.length := by
    rw [← hlen]; exact (List.getElem?_eq_some.mp hk).1
  exact ⟨k, nums[k], hk, List.getElem?_eq_getElem hlt,
    assignAll_getElem? peers nums vp k p _ hnd hk (List.getElem?_eq_getElem hlt)⟩

/-- Read in peer order, the assigned values are the numbers themselves. -/
theorem map_assignAll (peers : List ID) (nums : List Int) (vp : PriorityMap)
    (hnd : peers.Nodup) (hlen : peers.length = nums.length) :
    peers.map (assignAll peers nums vp) = nums.map some := by
  apply List.ext_getElem?
  intro k
  rw [List.getElem?_map, List.getElem?_map]
  by_cases hk : k < peers.length
  · have hk' : k < nums.length := hlen ▸ hk
    rw [List.getElem?_eq_getElem hk, List.getElem?_eq_getElem hk']
    simp only [Option.map_some']
    rw [assignAll_getElem? peers nums vp k _ _ hnd (List.getElem?_eq_getElem hk)
      (List.getElem?_eq_getElem hk')]
  · have hk' : ¬ k < nums.length := hlen ▸ hk
    rw [List.getElem?_eq_none (by omega), List.getElem?_eq_none (by omega)]
    rfl

/-! ## Auxiliary facts: the loop of `contributionPriority` -/

theorem contributionLoop_eq (sh : Shuffler) (hsh : sh.Permutes) (ids : List ID) (seed : Int)
    (self : ID) (level : Int) (hnd : ids.Nodup) : ∀ (rest : List ID) (cp : PriorityMap),
    (∀ x, x ∈ rest → x ∈ ids) →
    contributionLoop sh ids seed self level rest cp =
      Except.ok (contributeAll sh ids seed self level rest cp) := by
  intro rest
  induction rest with
  | nil => intro cp _; rfl
  | cons id rest ih =>
    intro cp h
    have hrest : ∀ x, x ∈ rest → x ∈ ids := fun x hx => h x (by simp [hx])
    by_cases e : id = self
    · simp only [contributionLoop, contributeAll, e, if_true]
      exact ih cp hrest
    · simp only [contributionLoop, contributeAll, e, if_false]
      rw [verificationPriority_eq sh hsh ids seed id level hnd (h id (by simp))]
      exact ih _ hrest

theorem contributeAll_apply (sh : Shuffler) (ids : List ID) (seed : Int) (self : ID)
    (level : Int) : ∀ (rest : List ID) (cp : PriorityMap) (x : ID),
    contributeAll sh ids seed self level rest cp x =
      if x ∈ rest ∧ x ≠ self then some ((vpOf sh ids seed x level).get self) else cp x := by
  intro rest
  induction rest with
  | nil => intro cp x; simp [contributeAll]
  | cons id rest ih =>
    intro cp x
    by_cases e : id = self
    · simp only [contributeAll, e, if_true]
      rw [ih]
      by_cases hx : x = self
      · simp [hx]
      · simp [hx]
    · simp only [contributeAll, e, if_false]
      rw [ih]
      by_cases hx : x ∈ rest ∧ x ≠ self
      · have hx' : x ∈ id :: rest ∧ x ≠ self := ⟨by simp [hx.1], hx.2⟩
        rw [if_pos hx, if_pos hx']
      · rw [if_neg hx]
        by_cases hid : x = id
        · subst hid
          simp [PriorityMap.set, e]
        · have hx' : ¬ (x ∈ id :: rest ∧ x ≠ self) := by
            rintro ⟨h1, h2⟩
            rcases List.mem_cons.mp h1 with h1 | h1
            · exact hid h1
            · exact hx ⟨h1, h2⟩
          rw [if_neg hx']
          simp [PriorityMap.set, hid]

theorem maxLevelOf_eq_clog (n : Nat) (hn : n ≠ 0) : maxLevelOf n = (Nat.clog 2 n : Int) := by
  rw [maxLevelOf_pos_len n hn, ceilLog2_eq_clog]

theorem otherHalf_spec (s : Int) (r : Int × Int) (h0 : 0 ≤ r.1) (h1 : r.1 ≤ s) (h2 : s ≤ r.2) :
    r.1 ≤ (otherHalf s r).1 ∧ (otherHalf s r).2 ≤ r.2 ∧
      (otherHalf s r).1 ≤ (otherHalf s r).2 + 1 := by
  have hd := tdiv_two r.1 r.2 (by omega)
  unfold otherHalf
  rw [hd]
  split
  · refine ⟨?_, ?_, ?_⟩ <;> simp only <;> omega
  · refine ⟨?_, ?_, ?_⟩ <;> simp only <;> omega

/-! ## The level ranges partition the peers -/

/-- C1. For a duplicate-free list `ids` holding `self` at index `s`, an index
lies in the range returned by `rangeLevel ids self L` for some level `L` in
`[1, maxLevel]` exactly when it is an index of `ids` other than `s`: the level
ranges together make up `{0, …, n-1}` minus `{s}` (a range with `min > max` has
no member). -/
theorem rangeLevel_levels_cover_peers (ids : List ID) (self : ID) (s : Nat) (hnd : ids.Nodup)
    (hs : ids[s]? = some self) (i : Int) :
    (∃ L mn mx : Int, 1 ≤ L ∧ L ≤ (Nat.clog 2 ids.length : Int) ∧
        rangeLevel ids self L = Except.ok (mn, mx) ∧ mn ≤ i ∧ i ≤ mx) ↔
      (0 ≤ i ∧ i < (ids.length : Int) ∧ i ≠ (s : Int)) := by
  obtain ⟨hlt, hget⟩ := List.getElem?_eq_some.mp hs
  have hne : ids ≠ [] := by intro h; subst h; simp at hlt
  have hfs := findSelf_of_getElem? ids self s hnd hs
  have hM := (ceilLog2_eq_clog ids.length).symm
  have h0 : (0 : Int) ≤ s := by omega
  have hn : (s : Int) < ids.length := by omega
  constructor
  · rintro ⟨L, mn, mx, hL1, hL2, hr, h1, h2⟩
    rw [hM] at hL2
    obtain ⟨L', rfl⟩ := Int.eq_ofNat_of_zero_le (by omega : 0 ≤ L)
    obtain ⟨j, hj⟩ : ∃ j, L' + j = ceilLog2 ids.length :=
      ⟨ceilLog2 ids.length - L', by omega⟩
    rw [rangeLevel_eq_otherHalf ids self hne j L' hj, hfs] at hr
    have hr' := Except.ok.inj hr
    obtain ⟨a, b, c, d, _⟩ := selfRange_inv ids.length s h0 hn j
    have hh := halves_spec s _ a b c i
    have hin : inRange (otherHalf s (selfRange ids.length s j)) i := by
      rw [hr']; exact ⟨h1, h2⟩
    have hin' := hh.1.mpr (Or.inr hin)
    unfold inRange at hin'
    refine ⟨by omega, by omega, ?_⟩
    intro e
    rw [e] at hin
    exact hh.2.2 hin
  · rintro ⟨hi0, hin, hne'⟩
    have hi : inRange (selfRange ids.length s 0) i := by
      simp only [selfRange, Function.iterate_zero, id_eq, inRange]; omega
    rcases selfRange_cover ids.length s h0 hn i hi (ceilLog2 ids.length) with h | ⟨k, hk, h⟩
    · rw [selfRange_final ids.length s h0 hn] at h
      unfold inRange at h
      simp only at h
      omega
    · refine ⟨((ceilLog2 ids.length - k : Nat) : Int), (otherHalf s (selfRange ids.length s k)).1,
        (otherHalf s (selfRange ids.length s k)).2, by omega, by rw [hM]; omega, ?_, h.1, h.2⟩
      rw [rangeLevel_eq_otherHalf ids self hne k _ (by omega), hfs]

theorem rangeLevel_levels_cover_peers_witness :
    ([10, 20, 30] : List ID).Nodup ∧ ([10, 20, 30] : List ID)[2]? = some 30 ∧
      ((∃ L mn mx : Int, 1 ≤ L ∧ L ≤ (Nat.clog 2 ([10, 20, 30] : List ID).length : Int) ∧
          rangeLevel [10, 20, 30] 30 L = Except.ok (mn, mx) ∧ mn ≤ 1 ∧ 1 ≤ mx) ↔
        (0 ≤ (1 : Int) ∧ (1 : Int) < (([10, 20, 30] : List ID).length : Int) ∧
          (1 : Int) ≠ ((2 : Nat) : Int))) :=
  ⟨by decide, rfl, rangeLevel_levels_cover_peers [10, 20, 30] 30 2 (by decide) rfl 1⟩

/-- C2. For a duplicate-free list `ids` holding `self` at index `s` and two
different levels `L1`, `L2` in `[1, maxLevel]`, `rangeLevel` returns a range for
each of them, the two ranges have no index in common, and neither contains
`s`. -/
theorem rangeLevel_levels_disjoint (ids : List ID) (self : ID) (s : Nat) (hnd : ids.Nodup)
    (hs : ids[s]? = some self) (L1 L2 : Int)
    (h1 : 1 ≤ L1 ∧ L1 ≤ (Nat.clog 2 ids.length : Int)) (h2 : 1 ≤ L2 ∧ L2 ≤ (Nat.clog 2 ids.length : Int))
    (hne : L1 ≠ L2) :
    ∃ r1 r2 : Int × Int, rangeLevel ids self L1 = Except.ok r1 ∧
      rangeLevel ids self L2 = Except.ok r2 ∧
      (∀ i : Int, ¬ ((r1.1 ≤ i ∧ i ≤ r1.2) ∧ (r2.1 ≤ i ∧ i ≤ r2.2))) ∧
      ¬ (r1.1 ≤ (s : Int) ∧ (s : Int) ≤ r1.2) ∧ ¬ (r2.1 ≤ (s : Int) ∧ (s : Int) ≤ r2.2) := by
  obtain ⟨hlt, hget⟩ := List.getElem?_eq_some.mp hs
  have hnil : ids ≠ [] := by intro h; subst h; simp at hlt
  have hfs := findSelf_of_getElem? ids self s hnd hs
  have hM := (ceilLog2_eq_clog ids.length).symm
  have h0 : (0 : Int) ≤ s := by omega
  have hn : (s : Int) < ids.length := by omega
  rw [hM] at h1 h2
  obtain ⟨a, rfl⟩ := Int.eq_ofNat_of_zero_le (by omega : 0 ≤ L1)
  obtain ⟨b, rfl⟩ := Int.eq_ofNat_of_zero_le (by omega : 0 ≤ L2)
  obtain ⟨j, hj⟩ : ∃ j, a + j = ceilLog2 ids.length := ⟨ceilLog2 ids.length - a, by omega⟩
  obtain ⟨k, hk⟩ : ∃ k, b + k = ceilLog2 ids.length := ⟨ceilLog2 ids.length - b, by omega⟩
  have hjk : j ≠ k := by intro e; subst e; apply hne; congr 1; omega
  refine ⟨_, _, by rw [rangeLevel_eq_otherHalf ids self hnil j a hj, hfs],
    by rw [rangeLevel_eq_otherHalf ids self hnil k b hk, hfs], ?_,
    otherHalf_not_self ids.length s h0 hn j, otherHalf_not_self ids.length s h0 hn k⟩
  intro i hi
  rcases Nat.lt_or_gt_of_ne hjk with h | h
  · exact otherHalf_disjoint ids.length s h0 hn j k h i hi
  · exact otherHalf_disjoint ids.length s h0 hn k j h i ⟨hi.2, hi.1⟩

theorem rangeLevel_levels_disjoint_witness :
    ∃ r1 r2 : Int × Int, rangeLevel [10, 20, 30, 40, 50] 40 1 = Except.ok r1 ∧
      rangeLevel [10, 20, 30, 40, 50] 40 3 = Except.ok r2 ∧
      (∀ i : Int, ¬ ((r1.1 ≤ i ∧ i ≤ r1.2) ∧ (r2.1 ≤ i ∧ i ≤ r2.2))) ∧
      ¬ (r1.1 ≤ ((3 : Nat) : Int) ∧ ((3 : Nat) : Int) ≤ r1.2) ∧
      ¬ (r2.1 ≤ ((3 : Nat) : Int) ∧ ((3 : Nat) : Int) ≤ r2.2) :=
  rangeLevel_levels_disjoint [10, 20, 30, 40, 50] 40 3 (by decide) rfl 1 3
    (by simp [Nat.clog]) (by simp [Nat.clog]) (by decide)

/-! ## Verification and contribution priority -/

/-- C3. For a duplicate-free list `ids` holding `self`, and a shuffle that
permutes its slice, `verificationPriority` returns a map whose keys are exactly
the ids other than `self`, whose values differ on different peers, and whose
set of values is exactly `{0, …, n-2}`. -/
theorem verificationPriority_bijection (sh : Shuffler) (hsh : sh.Permutes) (ids : List ID)
    (seed : Int) (self : ID) (level : Int) (hnd : ids.Nodup) (hself : self ∈ ids) :
    ∃ vp : PriorityMap, verificationPriority sh ids seed self level = Except.ok vp ∧
      (∀ id : ID, (vp id).isSome ↔ (id ∈ ids ∧ id ≠ self)) ∧
      (∀ p q : ID, p ∈ ids → p ≠ self → q ∈ ids → q ≠ self → vp p = vp q → p = q) ∧
      (∀ r : Int, (∃ p : ID, p ∈ ids ∧ p ≠ self ∧ vp p = some r) ↔
        (0 ≤ r ∧ r ≤ (ids.length : Int) - 2)) := by
  have hpn := peersOf_nodup self ids hnd
  have hnn := shuffledNumbers_nodup sh hsh ids.length seed level
  have hlen : (peersOf self ids).length = (shuffledNumbers sh ids.length seed level).length := by
    rw [peersOf_length self ids hnd hself, shuffledNumbers_length sh hsh]
  have hpos : 1 ≤ ids.length := List.length_pos_of_mem hself
  refine ⟨_, verificationPriority_eq sh hsh ids seed self level hnd hself, ?_, ?_, ?_⟩
  · intro id
    constructor
    · intro h
      by_contra hc
      rw [← mem_peersOf] at hc
      rw [assignAll_of_not_mem _ _ _ id hc] at h
      simp [PriorityMap.empty] at h
    · intro h
      obtain ⟨k, v, _, _, hv⟩ := assignAll_mem _ (shuffledNumbers sh ids.length seed level)
        PriorityMap.empty hpn hlen id ((mem_peersOf self ids id).mpr h)
      rw [hv]; rfl
  · intro p q hp hps hq hqs hpq
    obtain ⟨k1, v1, hk1, hn1, hv1⟩ := assignAll_mem _ (shuffledNumbers sh ids.length seed level)
      PriorityMap.empty hpn hlen p ((mem_peersOf self ids p).mpr ⟨hp, hps⟩)
    obtain ⟨k2, v2, hk2, hn2, hv2⟩ := assignAll_mem _ (shuffledNumbers sh ids.length seed level)
      PriorityMap.empty hpn hlen q ((mem_peersOf self ids q).mpr ⟨hq, hqs⟩)
    rw [hv1, hv2] at hpq
    have hv : v1 = v2 := Option.some.inj hpq
    subst hv
    have hk := nodup_getElem?_inj _ hnn k1 k2 v1 hn1 hn2
    subst hk
    rw [hk1] at hk2
    exact Option.some.inj hk2
  · intro r
    constructor
    · rintro ⟨p, hp, hps, hr⟩
      obtain ⟨k, v, _, hn, hv⟩ := assignAll_mem _ (shuffledNumbers sh ids.length seed level)
        PriorityMap.empty hpn hlen p ((mem_peersOf self ids p).mpr ⟨hp, hps⟩)
      rw [hv] at hr
      have hvr : v = r := Option.some.inj hr
      subst hvr
      have hm := (mem_shuffledNumbers sh hsh ids.length seed level v).mp
        (List.mem_iff_getElem?.mpr ⟨k, hn⟩)
      exact ⟨hm.1, hm.2.1⟩
    · rintro ⟨h0, h1⟩
      have hm := (mem_shuffledNumbers sh hsh ids.length seed level r).mpr ⟨h0, h1, hpos⟩
      obtain ⟨k, hk⟩ := List.mem_iff_getElem?.mp hm
      have hlt : k < (peersOf self ids).length := by
        rw [hlen]; exact (List.getElem?_eq_some.mp hk).1
      have hp := (mem_peersOf self ids _).mp (List.getElem_mem hlt)
      exact ⟨_, hp.1, hp.2, assignAll_getElem? _ _ _ k _ r hpn (List.getElem?_eq_getElem hlt) hk⟩

theorem verificationPriority_bijection_witness :
    ∃ vp : PriorityMap,
      verificationPriority reverseShuffle [10, 20, 30, 40] 7 20 1 = Except.ok vp ∧
      (∀ id : ID, (vp id).isSome ↔ (id ∈ ([10, 20, 30, 40] : List ID) ∧ id ≠ 20)) ∧
      (∀ p q : ID, p ∈ ([10, 20, 30, 40] : List ID) → p ≠ 20 →
        q ∈ ([10, 20, 30, 40] : List ID) → q ≠ 20 → vp p = vp q → p = q) ∧
      (∀ r : Int, (∃ p : ID, p ∈ ([10, 20, 30, 40] : List ID) ∧ p ≠ 20 ∧ vp p = some r) ↔
        (0 ≤ r ∧ r ≤ ((([10, 20, 30, 40] : List ID).length : Nat) : Int) - 2)) :=
  verificationPriority_bijection reverseShuffle (fun _ _ xs => List.reverse_perm xs)
    [10, 20, 30, 40] 7 20 1
    (by decide) (by decide)

/-- C4. For a duplicate-free list `ids` holding `self`, and a shuffle that
permutes its slice, `contributionPriority` returns a map with an entry for
exactly the ids other than `self`, and its entry for a peer `p` is the entry for
`self` in the map `verificationPriority` returns for `p`. -/
theorem contributionPriority_dual (sh : Shuffler) (hsh : sh.Permutes) (ids : List ID)
    (seed : Int) (self : ID) (level : Int) (hnd : ids.Nodup) (hself : self ∈ ids) :
    ∃ cp : PriorityMap, contributionPriority sh ids seed self level = Except.ok cp ∧
      (∀ id : ID, (cp id).isSome ↔ (id ∈ ids ∧ id ≠ self)) ∧
      (∀ p : ID, p ∈ ids → p ≠ self →
        ∃ vp : PriorityMap, verificationPriority sh ids seed p level = Except.ok vp ∧
          (vp self).isSome ∧ cp p = vp self ∧ cp.get p = vp.get self) := by
  refine ⟨_, contributionLoop_eq sh hsh ids seed self level hnd ids PriorityMap.empty
    (fun _ h => h), ?_, ?_⟩
  · intro id
    rw [contributeAll_apply]
    by_cases h : id ∈ ids ∧ id ≠ self
    · rw [if_pos h]; simp [h]
    · rw [if_neg h]; simp [PriorityMap.empty, h]
  · intro p hp hps
    have hlen : (peersOf p ids).length = (shuffledNumbers sh ids.length seed level).length := by
      rw [peersOf_length p ids hnd hp, shuffledNumbers_length sh hsh]
    obtain ⟨k, v, _, _, hv⟩ := assignAll_mem (peersOf p ids)
      (shuffledNumbers sh ids.length seed level) PriorityMap.empty (peersOf_nodup p ids hnd) hlen
      self ((mem_peersOf p ids self).mpr ⟨hself, fun e => hps e.symm⟩)
    have hv' : vpOf sh ids seed p level self = some v := hv
    refine ⟨vpOf sh ids seed p level, verificationPriority_eq sh hsh ids seed p level hnd hp,
      ?_, ?_, ?_⟩
    · rw [hv']; rfl
    · rw [contributeAll_apply, if_pos ⟨hp, hps⟩]
      simp [PriorityMap.get, hv']
    · simp only [PriorityMap.get]
      rw [contributeAll_apply, if_pos ⟨hp, hps⟩]
      simp [PriorityMap.get]

theorem contributionPriority_dual_witness :
    ∃ cp : PriorityMap,
      contributionPriority reverseShuffle [10, 20, 30, 40] 7 20 1 = Except.ok cp ∧
      (∀ id : ID, (cp id).isSome ↔ (id ∈ ([10, 20, 30, 40] : List ID) ∧ id ≠ 20)) ∧
      (∀ p : ID, p ∈ ([10, 20, 30, 40] : List ID) → p ≠ 20 →
        ∃ vp : PriorityMap,
          verificationPriority reverseShuffle [10, 20, 30, 40] 7 p 1 = Except.ok vp ∧
          (vp 20).isSome ∧ cp p = vp 20 ∧ cp.get p = vp.get 20) :=
  contributionPriority_dual reverseShuffle (fun _ _ xs => List.reverse_perm xs)
    [10, 20, 30, 40] 7 20 1 (by decide) (by decide)

/-- C5. For a duplicate-free list `ids` and two replicas `a`, `b` in it, the
ranks that `verificationPriority` assigns to the peers of `a`, read in `ids`
order, are the ranks it assigns to the peers of `b`, read in `ids` order: both
are the slice `numbers` after the shuffle seeded with `seed + level`, which is
computed from the number of ids, the seed and the level alone. -/
theorem verificationPriority_same_permutation (sh : Shuffler) (hsh : sh.Permutes)
    (ids : List ID) (seed : Int) (level : Int) (a b : ID) (hnd : ids.Nodup)
    (ha : a ∈ ids) (hb : b ∈ ids) :
    ∃ vpa vpb : PriorityMap, verificationPriority sh ids seed a level = Except.ok vpa ∧
      verificationPriority sh ids seed b level = Except.ok vpb ∧
      (ids.filter (· != a)).map vpa = (ids.filter (· != b)).map vpb ∧
      (ids.filter (· != a)).map vpa =
        (sh Int (wrapInt64 (seed + level)) ((List.range (ids.length - 1)).map Int.ofNat)).map
          some := by
  have hla : (peersOf a ids).length = (shuffledNumbers sh ids.length seed level).length := by
    rw [peersOf_length a ids hnd ha, shuffledNumbers_length sh hsh]
  have hlb : (peersOf b ids).length = (shuffledNumbers sh ids.length seed level).length := by
    rw [peersOf_length b ids hnd hb, shuffledNumbers_length sh hsh]
  have ea := map_assignAll (peersOf a ids) (shuffledNumbers sh ids.length seed level)
    PriorityMap.empty (peersOf_nodup a ids hnd) hla
  have eb := map_assignAll (peersOf b ids) (shuffledNumbers sh ids.length seed level)
    PriorityMap.empty (peersOf_nodup b ids hnd) hlb
  exact ⟨_, _, verificationPriority_eq sh hsh ids seed a level hnd ha,
    verificationPriority_eq sh hsh ids seed b level hnd hb, ea.trans eb.symm, ea⟩

theorem verificationPriority_same_permutation_witness :
    ∃ vpa vpb : PriorityMap,
      verificationPriority reverseShuffle [10, 20, 30, 40] 7 10 2 = Except.ok vpa ∧
      verificationPriority reverseShuffle [10, 20, 30, 40] 7 40 2 = Except.ok vpb ∧
      (([10, 20, 30, 40] : List ID).filter (· != 10)).map vpa =
        (([10, 20, 30, 40] : List ID).filter (· != 40)).map vpb ∧
      (([10, 20, 30, 40] : List ID).filter (· != 10)).map vpa =
        (reverseShuffle Int (wrapInt64 (7 + 2))
          ((List.range (([10, 20, 30, 40] : List ID).length - 1)).map Int.ofNat)).map some :=
  verificationPriority_same_permutation reverseShuffle (fun _ _ xs => List.reverse_perm xs)
    [10, 20, 30, 40] 7 2 10 40 (by decide) (by decide) (by decide)

/-! ## Failure and range of `rangeLevel` -/

/-- C6. For a non-empty list `ids`, `rangeLevel ids id level` fails, with the
invalid-level panic, exactly when `level < 0` or `level > ⌈log₂ (len ids)⌉`;
for every level within `[0, maxLevel]` it returns a pair. -/
theorem rangeLevel_fails_iff (ids : List ID) (id : ID) (level : Int) (hne : ids ≠ []) :
    ((∃ e, rangeLevel ids id level = Except.error e) ↔
        (level < 0 ∨ level > (Nat.clog 2 ids.length : Int))) ∧
      (rangeLevel ids id level = Except.error "handel: invalid level" ↔
        (level < 0 ∨ level > (Nat.clog 2 ids.length : Int))) ∧
      ((0 ≤ level ∧ level ≤ (Nat.clog 2 ids.length : Int)) →
        ∃ r : Int × Int, rangeLevel ids id level = Except.ok r) := by
  have hlen : ids.length ≠ 0 := by simpa using hne
  have hM := maxLevelOf_eq_clog ids.length hlen
  by_cases hg : level < 0 ∨ level > (Nat.clog 2 ids.length : Int)
  · have hr : rangeLevel ids id level = Except.error "handel: invalid level" := by
      simp only [rangeLevel, hM, hg, if_true]
    refine ⟨⟨fun _ => hg, fun _ => ⟨_, hr⟩⟩, ⟨fun _ => hg, fun _ => hr⟩, ?_⟩
    intro h
    omega
  · have hr : ∃ r : Int × Int, rangeLevel ids id level = Except.ok r := by
      simp only [rangeLevel, hM, hg, if_false]
      exact ⟨_, rfl⟩
    obtain ⟨r, hr⟩ := hr
    refine ⟨⟨?_, fun h => absurd h hg⟩, ⟨?_, fun h => absurd h hg⟩, fun _ => ⟨r, hr⟩⟩
    · rintro ⟨e, he⟩
      rw [hr] at he
      cases he
    · intro he
      rw [hr] at he
      cases he

theorem rangeLevel_fails_iff_witness :
    ((∃ e, rangeLevel [10, 20, 30] 20 3 = Except.error e) ↔
        ((3 : Int) < 0 ∨ (3 : Int) > (Nat.clog 2 ([10, 20, 30] : List ID).length : Int))) ∧
      (rangeLevel [10, 20, 30] 20 3 = Except.error "handel: invalid level" ↔
        ((3 : Int) < 0 ∨ (3 : Int) > (Nat.clog 2 ([10, 20, 30] : List ID).length : Int))) ∧
      ((0 ≤ (3 : Int) ∧ (3 : Int) ≤ (Nat.clog 2 ([10, 20, 30] : List ID).length : Int)) →
        ∃ r : Int × Int, rangeLevel [10, 20, 30] 20 3 = Except.ok r) :=
  rangeLevel_fails_iff [10, 20, 30] 20 3 (by decide)

/-- C7, evaluated on the code: the id `50` does not occur in
`[10, 20, 30, 40]`, so the search leaves the not-found value `selfIndex = -1`;
`rangeLevel` never tests it, and at level `2 = maxLevel` it does not fail but
returns the range `(2, 3)`. -/
theorem rangeLevel_absent_id_returns_range :
    ([10, 20, 30, 40] : List ID) ≠ [] ∧ (50 : ID) ∉ ([10, 20, 30, 40] : List ID) ∧
      (0 : Int) ≤ 2 ∧ (2 : Int) ≤ (Nat.clog 2 ([10, 20, 30, 40] : List ID).length : Int) ∧
      rangeLevel [10, 20, 30, 40] 50 2 = Except.ok (2, 3) ∧
      (¬ ∃ e, rangeLevel [10, 20, 30, 40] 50 2 = Except.error e) ∧
      findSelf [10, 20, 30, 40] 50 = -1 := by
  refine ⟨by decide, by decide, by decide, by simp [Nat.clog], rfl, ?_, by decide⟩
  rintro ⟨e, he⟩
  have h : rangeLevel [10, 20, 30, 40] 50 2 = Except.ok (2, 3) := rfl
  rw [h] at he
  cases he

/-- C8, as stated, fails: in `[10, 20, 30]` the replica `30` (index `2`) has at
level `1` the range `(3, 2)`, where `min > max` and `min` is not an index. -/
theorem rangeLevel_empty_range :
    ([10, 20, 30] : List ID).Nodup ∧ ([10, 20, 30] : List ID)[2]? = some 30 ∧
      2 ≤ ([10, 20, 30] : List ID).length ∧
      (1 : Int) ≤ 1 ∧ (1 : Int) ≤ (Nat.clog 2 ([10, 20, 30] : List ID).length : Int) ∧
      rangeLevel [10, 20, 30] 30 1 = Except.ok (3, 2) ∧
      ¬ ((0 : Int) ≤ 3 ∧ (3 : Int) ≤ 2 ∧ (2 : Int) ≤ (([10, 20, 30] : List ID).length : Int) - 1) := by
  refine ⟨by decide, rfl, by decide, by decide, by simp [Nat.clog], rfl, by decide⟩

/-- C8, amended. For a duplicate-free list `ids` holding `self` and a level `L`
in `[1, maxLevel]` (so that `n ≥ 2`), `rangeLevel` returns a pair `(min, max)`
with `0 ≤ min`, `max ≤ n - 1` and `min ≤ max + 1`: a closed range of indices
into `ids`, or an empty range. -/
theorem rangeLevel_range_bounds (ids : List ID) (self : ID) (s : Nat) (hnd : ids.Nodup)
    (hs : ids[s]? = some self) (L : Int)
    (hL : 1 ≤ L ∧ L ≤ (Nat.clog 2 ids.length : Int)) :
    ∃ mn mx : Int, rangeLevel ids self L = Except.ok (mn, mx) ∧
      0 ≤ mn ∧ mn ≤ mx + 1 ∧ mx ≤ (ids.length : Int) - 1 := by
  obtain ⟨hlt, hget⟩ := List.getElem?_eq_some.mp hs
  have hnil : ids ≠ [] := by intro h; subst h; simp at hlt
  have hfs := findSelf_of_getElem? ids self s hnd hs
  have hM := (ceilLog2_eq_clog ids.length).symm
  have h0 : (0 : Int) ≤ s := by omega
  have hn : (s : Int) < ids.length := by omega
  rw [hM] at hL
  obtain ⟨a, rfl⟩ := Int.eq_ofNat_of_zero_le (by omega : 0 ≤ L)
  obtain ⟨j, hj⟩ : ∃ j, a + j = ceilLog2 ids.length := ⟨ceilLog2 ids.length - a, by omega⟩
  obtain ⟨i1, i2, i3, i4, _⟩ := selfRange_inv ids.length s h0 hn j
  obtain ⟨o1, o2, o3⟩ := otherHalf_spec s _ i1 i2 i3
  refine ⟨_, _, by rw [rangeLevel_eq_otherHalf ids self hnil j a hj, hfs], ?_, o3, ?_⟩
  · omega
  · omega

theorem rangeLevel_range_bounds_witness :
    ∃ mn mx : Int, rangeLevel [10, 20, 30] 30 1 = Except.ok (mn, mx) ∧
      0 ≤ mn ∧ mn ≤ mx + 1 ∧ mx ≤ (([10, 20, 30] : List ID).length : Int) - 1 :=
  rangeLevel_range_bounds [10, 20, 30] 30 2 (by decide) rfl 1 (by simp [Nat.clog])

/-! ## Scoring -/

/-- C9. A contribution whose level is below `1` or above the session's
`maxLevel` scores `0`. -/
theorem score_invalid_level (s : session) (contribution : Contribution)
    (h : contribution.level < 1 ∨ contribution.level > s.h.maxLevel) :
    s.score contribution = some 0 := by
  simp only [session.score, h, if_true]

theorem score_invalid_level_witness :
    (session.mk (exampleHandel 2) 0 [10, 20, 30, 40] []).score
      (Contribution.mk 5 (AggregateSignature.mk [2, 3])) = some 0 :=
  score_invalid_level (session.mk (exampleHandel 2) 0 [10, 20, 30, 40] [])
    (Contribution.mk 5 (AggregateSignature.mk [2, 3])) (by decide)

/-- C10, evaluated on the code: for a level within `[1, maxLevel]` the body of
`score` ends without returning a value; no count of new signers is computed.
Here the contribution covers signers `2` and `3`, none of which is covered by
the incoming aggregate of level `1`, and the result is not `2`. -/
theorem score_valid_level_no_result :
    (session.mk (exampleHandel 2) 0 [10, 20, 30, 40]
        [level.mk PriorityMap.empty PriorityMap.empty (AggregateSignature.mk [])
          (AggregateSignature.mk []) (fun _ => none) 0]).score
      (Contribution.mk 1 (AggregateSignature.mk [2, 3])) = none := by
  decide

/-! ## Sessions -/

theorem wrapInt64_bounds (x : Int) : -(2 ^ 63) ≤ wrapInt64 x ∧ wrapInt64 x < 2 ^ 63 := by
  unfold wrapInt64
  omega

theorem wrapInt64_add_wrapInt64 (x y : Int) : wrapInt64 (x + wrapInt64 y) = wrapInt64 (x + y) := by
  unfold wrapInt64
  omega

theorem wrapInt64_congruent (x : Int) : (2 ^ 64 : Int) ∣ (wrapInt64 x - x) := by
  unfold wrapInt64
  omega

theorem leUint64_congr (hash hash2 : Hash)
    (hagree : ∀ i : Fin 32, i.val < 8 → hash2 i = hash i) : leUint64 hash2 = leUint64 hash := by
  simp only [leUint64, hagree 0 (by decide), hagree 1 (by decide), hagree 2 (by decide),
    hagree 3 (by decide), hagree 4 (by decide), hagree 5 (by decide), hagree 6 (by decide),
    hagree 7 (by decide)]

theorem insertionSort_eq_of_perm (xs ys : List ID) (hp : xs.Perm ys) :
    xs.insertionSort (· ≤ ·) = ys.insertionSort (· ≤ ·) :=
  List.eq_of_perm_of_sorted
    (((List.perm_insertionSort (· ≤ ·) xs).trans hp).trans
      (List.perm_insertionSort (· ≤ ·) ys).symm)
    (List.sorted_insertionSort (· ≤ ·) xs) (List.sorted_insertionSort (· ≤ ·) ys)

/-- C11, evaluated on the code: `newSession` assigns `h`, `seed` and `ids` only;
the session it returns has no level at all, whatever the number of replicas, so
there is no level with priority maps `vp` and `cp`. -/
theorem newSession_levels_nil (sh : Shuffler) (h : Handel) (iter : List ID) (hash : Hash) :
    (h.newSession sh iter hash).levels = [] ∧
      ((exampleHandel 2).newSession reverseShuffle [10, 20, 30, 40] exampleHash).levels.length
        = 0 ∧
      maxLevelOf exampleModules.replicas.length = 2 :=
  ⟨rfl, rfl, by decide⟩

/-- C12. The list `ids` built by `newSession` contains every configured id
exactly once, is a rearrangement of the ascending list of the configured ids,
and is the seeded shuffle of that ascending list: two replicas whose
configurations hold the same set of ids and the same shared seed obtain, for
the same hash, the same `ids`, whatever the order in which either of them
iterates over its replica map. -/
theorem newSession_ids_order_independent (sh : Shuffler) (hsh : sh.Permutes)
    (ha hb : Handel) (ia ib : List ID) (hash : Hash)
    (hnda : ha.mods.replicas.Nodup) (hndb : hb.mods.replicas.Nodup)
    (hia : ia.Perm ha.mods.replicas) (hib : ib.Perm hb.mods.replicas)
    (hset : ∀ id : ID, id ∈ ha.mods.replicas ↔ id ∈ hb.mods.replicas)
    (hseed : ha.mods.sharedRandomSeed = hb.mods.sharedRandomSeed) :
    (ha.newSession sh ia hash).ids = (hb.newSession sh ib hash).ids ∧
      (ha.newSession sh ia hash).ids =
        sh ID (ha.newSession sh ia hash).seed (ha.mods.replicas.insertionSort (· ≤ ·)) ∧
      (ha.newSession sh ia hash).ids.Perm (ha.mods.replicas.insertionSort (· ≤ ·)) ∧
      (ha.newSession sh ia hash).ids.Nodup ∧
      (∀ id : ID, id ∈ (ha.newSession sh ia hash).ids ↔ id ∈ ha.mods.replicas) ∧
      (∀ id : ID, id ∈ ha.mods.replicas → (ha.newSession sh ia hash).ids.count id = 1) := by
  have hab : ha.mods.replicas.Perm hb.mods.replicas :=
    (List.perm_ext_iff_of_nodup hnda hndb).mpr hset
  have hsa := insertionSort_eq_of_perm ia ha.mods.replicas hia
  have hsb := insertionSort_eq_of_perm ib ha.mods.replicas (hib.trans hab.symm)
  have hperm : (ha.newSession sh ia hash).ids.Perm ha.mods.replicas := by
    simp only [Handel.newSession, hsa]
    exact (hsh ID _ _).trans (List.perm_insertionSort (· ≤ ·) _)
  have hnd : (ha.newSession sh ia hash).ids.Nodup := hperm.nodup_iff.mpr hnda
  refine ⟨?_, ?_, ?_, hnd, fun id => hperm.mem_iff, ?_⟩
  · simp only [Handel.newSession, hsa, hsb, hseed]
  · simp only [Handel.newSession, hsa]
  · exact hperm.trans (List.perm_insertionSort (· ≤ ·) _).symm
  · intro id hid
    exact List.count_eq_one_of_mem hnd (hperm.mem_iff.mpr hid)

theorem newSession_ids_order_independent_witness :
    ((exampleHandel 0).newSession reverseShuffle [30, 10, 40, 20] exampleHash).ids =
        ((exampleHandel 2).newSession reverseShuffle [20, 40, 10, 30] exampleHash).ids ∧
      ((exampleHandel 0).newSession reverseShuffle [30, 10, 40, 20] exampleHash).ids =
        reverseShuffle ID
          ((exampleHandel 0).newSession reverseShuffle [30, 10, 40, 20] exampleHash).seed
          ((exampleHandel 0).mods.replicas.insertionSort (· ≤ ·)) ∧
      ((exampleHandel 0).newSession reverseShuffle [30, 10, 40, 20] exampleHash).ids.Perm
        ((exampleHandel 0).mods.replicas.insertionSort (· ≤ ·)) ∧
      ((exampleHandel 0).newSession reverseShuffle [30, 10, 40, 20] exampleHash).ids.Nodup ∧
      (∀ id : ID,
        id ∈ ((exampleHandel 0).newSession reverseShuffle [30, 10, 40, 20] exampleHash).ids ↔
          id ∈ (exampleHandel 0).mods.replicas) ∧
      (∀ id : ID, id ∈ (exampleHandel 0).mods.replicas →
        ((exampleHandel 0).newSession reverseShuffle [30, 10, 40, 20] exampleHash).ids.count id
          = 1) :=
  newSession_ids_order_independent reverseShuffle (fun _ _ xs => List.reverse_perm xs)
    (exampleHandel 0) (exampleHandel 2) [30, 10, 40, 20] [20, 40, 10, 30] exampleHash
    (by decide) (by decide) (by decide) (by decide) (fun _ => Iff.rfl) rfl

/-- The little-endian value determines the first eight bytes. -/
theorem leUint64_inj (hash hash2 : Hash) (h : leUint64 hash2 = leUint64 hash) :
    ∀ i : Fin 32, i.val < 8 → hash2 i = hash i := by
  have a0 := (hash 0).isLt
  have a1 := (hash 1).isLt
  have a2 := (hash 2).isLt
  have a3 := (hash 3).isLt
  have a4 := (hash 4).isLt
  have a5 := (hash 5).isLt
  have a6 := (hash 6).isLt
  have a7 := (hash 7).isLt
  have b0 := (hash2 0).isLt
  have b1 := (hash2 1).isLt
  have b2 := (hash2 2).isLt
  have b3 := (hash2 3).isLt
  have b4 := (hash2 4).isLt
  have b5 := (hash2 5).isLt
  have b6 := (hash2 6).isLt
  have b7 := (hash2 7).isLt
  simp only [leUint64] at h
  have e0 : hash2 0 = hash 0 := Fin.ext (by omega)
  have e1 : hash2 1 = hash 1 := Fin.ext (by omega)
  have e2 : hash2 2 = hash 2 := Fin.ext (by omega)
  have e3 : hash2 3 = hash 3 := Fin.ext (by omega)
  have e4 : hash2 4 = hash 4 := Fin.ext (by omega)
  have e5 : hash2 5 = hash 5 := Fin.ext (by omega)
  have e6 : hash2 6 = hash 6 := Fin.ext (by omega)
  have e7 : hash2 7 = hash 7 := Fin.ext (by omega)
  intro i hi
  have hcases : i = 0 ∨ i = 1 ∨ i = 2 ∨ i = 3 ∨ i = 4 ∨ i = 5 ∨ i = 6 ∨ i = 7 := by
    have hv : i.val = 0 ∨ i.val = 1 ∨ i.val = 2 ∨ i.val = 3 ∨ i.val = 4 ∨ i.val = 5 ∨
        i.val = 6 ∨ i.val = 7 := by omega
    rcases hv with hv | hv | hv | hv | hv | hv | hv | hv
    · exact Or.inl (Fin.ext hv)
    · exact Or.inr (Or.inl (Fin.ext hv))
    · exact Or.inr (Or.inr (Or.inl (Fin.ext hv)))
    · exact Or.inr (Or.inr (Or.inr (Or.inl (Fin.ext hv))))
    · exact Or.inr (Or.inr (Or.inr (Or.inr (Or.inl (Fin.ext hv)))))
    · exact Or.inr (Or.inr (Or.inr (Or.inr (Or.inr (Or.inl (Fin.ext hv))))))
    · exact Or.inr (Or.inr (Or.inr (Or.inr (Or.inr (Or.inr (Or.inl (Fin.ext hv)))))))
    · exact Or.inr (Or.inr (Or.inr (Or.inr (Or.inr (Or.inr (Or.inr (Fin.ext hv)))))))
  rcases hcases with c | c | c | c | c | c | c | c <;> subst c <;> assumption

theorem leUint64_lt (hash : Hash) : leUint64 hash < 2 ^ 64 := by
  have a0 := (hash 0).isLt
  have a1 := (hash 1).isLt
  have a2 := (hash 2).isLt
  have a3 := (hash 3).isLt
  have a4 := (hash 4).isLt
  have a5 := (hash 5).isLt
  have a6 := (hash 6).isLt
  have a7 := (hash 7).isLt
  simp only [leUint64]
  omega

/-- On arguments that differ by less than `2 ^ 64` the wrap-around is injective. -/
theorem wrapInt64_add_inj (r : Int) (u v : Nat) (hu : u < 2 ^ 64) (hv : v < 2 ^ 64)
    (h : wrapInt64 (r + (u : Int)) = wrapInt64 (r + (v : Int))) : u = v := by
  unfold wrapInt64 at h
  omega

/-- C13. The seed of the session returned by `newSession` is the shared random
seed `r` plus the number `b0 + b1 * 2^8 + … + b7 * 2^56` formed from the first
eight bytes `b0, …, b7` of the hash, least significant byte first, reduced
modulo `2 ^ 64` into the signed 64-bit range.  It is a function of `r` and of
these eight bytes only: for a fixed `r`, two hashes yield the same seed exactly
when they agree on their first eight bytes, whatever the iteration order. -/
theorem newSession_seed (sh : Shuffler) (h : Handel) (iter : List ID) (hash : Hash) :
    (h.newSession sh iter hash).seed =
        (h.mods.sharedRandomSeed +
          (((hash 0).val + (hash 1).val * 2 ^ 8 + (hash 2).val * 2 ^ 16 +
            (hash 3).val * 2 ^ 24 + (hash 4).val * 2 ^ 32 + (hash 5).val * 2 ^ 40 +
            (hash 6).val * 2 ^ 48 + (hash 7).val * 2 ^ 56 : Nat) : Int) + 2 ^ 63) % 2 ^ 64
          - 2 ^ 63 ∧
      -(2 ^ 63) ≤ (h.newSession sh iter hash).seed ∧
      (h.newSession sh iter hash).seed < 2 ^ 63 ∧
      (2 ^ 64 : Int) ∣
        ((h.newSession sh iter hash).seed - (h.mods.sharedRandomSeed +
          (((hash 0).val + (hash 1).val * 2 ^ 8 + (hash 2).val * 2 ^ 16 +
            (hash 3).val * 2 ^ 24 + (hash 4).val * 2 ^ 32 + (hash 5).val * 2 ^ 40 +
            (hash 6).val * 2 ^ 48 + (hash 7).val * 2 ^ 56 : Nat) : Int))) ∧
      ∀ (hash2 : Hash) (iter2 : List ID),
        (h.newSession sh iter2 hash2).seed = (h.newSession sh iter hash).seed ↔
          ∀ i : Fin 32, i.val < 8 → hash2 i = hash i := by
  have e : ∀ (it : List ID) (hs : Hash), (h.newSession sh it hs).seed =
      wrapInt64 (h.mods.sharedRandomSeed + (leUint64 hs : Int)) := by
    intro it hs
    simp only [Handel.newSession, wrapInt64_add_wrapInt64]
  refine ⟨?_, ?_, ?_, ?_, ?_⟩
  · rw [e]; rfl
  · rw [e]; exact (wrapInt64_bounds _).1
  · rw [e]; exact (wrapInt64_bounds _).2
  · rw [e]; exact wrapInt64_congruent _
  · intro hash2 iter2
    rw [e, e]
    constructor
    · intro hseed
      exact leUint64_inj hash hash2
        (wrapInt64_add_inj _ _ _ (leUint64_lt hash2) (leUint64_lt hash) hseed)
    · intro hagree
      rw [leUint64_congr hash hash2 hagree]

theorem newSession_seed_witness :
    ((exampleHandel 0).newSession reverseShuffle [30, 10, 40, 20] exampleHash).seed = 518 ∧
      ((exampleHandel 0).newSession reverseShuffle [30, 10, 40, 20] exampleHashTail).seed
        = 518 ∧
      ((exampleHandel 0).newSession reverseShuffle [30, 10, 40, 20] exampleHashSwapped).seed
        = 263 ∧
      ((Handel.mk (Modules.mk none none [] (2 ^ 63 - 1)) none 0 none).newSession reverseShuffle
        [] exampleHash).seed = -(2 ^ 63) + 512 :=
  ⟨(newSession_seed reverseShuffle (exampleHandel 0) [30, 10, 40, 20] exampleHash).1.trans
      (by decide),
    ((newSession_seed reverseShuffle (exampleHandel 0) [30, 10, 40, 20] exampleHash).2.2.2.2
      exampleHashTail [30, 10, 40, 20]).mpr (by decide) |>.trans
      ((newSession_seed reverseShuffle (exampleHandel 0) [30, 10, 40, 20] exampleHash).1.trans
        (by decide)),
    (newSession_seed reverseShuffle (exampleHandel 0) [30, 10, 40, 20] exampleHashSwapped).1.trans
      (by decide),
    (newSession_seed reverseShuffle (Handel.mk (Modules.mk none none [] (2 ^ 63 - 1)) none 0 none)
      [] exampleHash).1.trans (by decide)⟩

/-- C14. `Init` returns an error exactly when the server module or the
configuration module is missing from the registry; in that case `cfg`,
`maxLevel` and the registry, with its server and the handlers registered on it,
are as before; when it returns nil the handler is registered, `cfg` is set and
`maxLevel` is `⌈log₂ n⌉` for the `n ≥ 1` configured replicas. -/
theorem Init_error_iff (h : Handel) :
    ((h.Init).1.isSome ↔ (h.mods.server = none ∨ h.mods.config = none)) ∧
      ((h.Init).1.isSome →
        (h.Init).2.cfg = h.cfg ∧ (h.Init).2.maxLevel = h.maxLevel ∧ (h.Init).2.mods = h.mods) ∧
      ((h.Init).1 = none →
        (h.Init).2.mods.server = some (Server.mk true) ∧ (h.Init).2.cfg.isSome ∧
          (h.Init).2.maxLevel = maxLevelOf h.mods.replicas.length ∧
          (h.mods.replicas ≠ [] →
            (h.Init).2.maxLevel = (Nat.clog 2 h.mods.replicas.length : Int))) := by
  cases hs : h.mods.server with
  | none => simp [Handel.Init, hs]
  | some srv =>
    cases hc : h.mods.config with
    | none => simp [Handel.Init, hs, hc]
    | some cfg =>
      have e : h.Init = (none, Handel.mk (Modules.mk (some (Server.mk true)) (some cfg)
          h.mods.replicas h.mods.sharedRandomSeed) (some cfg.rawConfiguration)
          (maxLevelOf h.mods.replicas.length) (some [])) := by
        simp [Handel.Init, hs, hc]
      rw [e]
      refine ⟨by simp, by simp, fun _ => ⟨rfl, rfl, rfl, fun hne => ?_⟩⟩
      exact maxLevelOf_eq_clog _ (by simpa using hne)

theorem Init_error_iff_witness :
    ((Handel.mk (Modules.mk none (some (Config.mk 0)) [10, 20, 30] 5) (some 9) 7 none).Init).1
        = some "could not get gorums server" ∧
      ((Handel.mk (Modules.mk none (some (Config.mk 0)) [10, 20, 30] 5) (some 9) 7 none).Init).2.cfg
        = some 9 ∧
      ((Handel.mk (Modules.mk none (some (Config.mk 0)) [10, 20, 30] 5) (some 9) 7
        none).Init).2.maxLevel = 7 ∧
      ((exampleHandel 7).Init).2.maxLevel = (Nat.clog 2 (exampleHandel 7).mods.replicas.length : Int) :=
  ⟨rfl,
    ((Init_error_iff (Handel.mk (Modules.mk none (some (Config.mk 0)) [10, 20, 30] 5) (some 9) 7
      none)).2.1 rfl).1,
    ((Init_error_iff (Handel.mk (Modules.mk none (some (Config.mk 0)) [10, 20, 30] 5) (some 9) 7
      none)).2.1 rfl).2.1,
    ((Init_error_iff (exampleHandel 7)).2.2 rfl).2.2.2 (by decide)⟩

/-! ## Sizes of the level ranges -/

theorem otherHalf_size (s : Int) (r : Int × Int) (h0 : 0 ≤ r.1) (h1 : r.1 ≤ s) (h2 : s ≤ r.2)
    (e : Int) (he : r.2 - r.1 + 1 ≤ 2 * e) :
    (otherHalf s r).2 - (otherHalf s r).1 + 1 ≤ e := by
  have hd := tdiv_two r.1 r.2 (by omega)
  unfold otherHalf
  rw [hd]
  split
  · simp only; omega
  · simp only; omega

/-- C15. For a duplicate-free list `ids` holding `self` and a level `L` in
`[1, maxLevel]`, the range `(min, max)` returned by `rangeLevel` holds at most
`2 ^ (L - 1)` indices: `max - min + 1 ≤ 2 ^ (L - 1)`. -/
theorem rangeLevel_size_bound (ids : List ID) (self : ID) (s : Nat) (hnd : ids.Nodup)
    (hs : ids[s]? = some self) (L : Nat) (hL : 1 ≤ L ∧ L ≤ Nat.clog 2 ids.length) :
    ∃ mn mx : Int, rangeLevel ids self (L : Int) = Except.ok (mn, mx) ∧
      mx - mn + 1 ≤ ((2 ^ (L - 1) : Nat) : Int) := by
  obtain ⟨hlt, hget⟩ := List.getElem?_eq_some.mp hs
  have hnil : ids ≠ [] := by intro h; subst h; simp at hlt
  have hfs := findSelf_of_getElem? ids self s hnd hs
  have hM := (ceilLog2_eq_clog ids.length).symm
  have h0 : (0 : Int) ≤ s := by omega
  have hn : (s : Int) < ids.length := by omega
  rw [hM] at hL
  obtain ⟨j, hj⟩ : ∃ j, L + j = ceilLog2 ids.length := ⟨ceilLog2 ids.length - L, by omega⟩
  obtain ⟨i1, i2, i3, _, hsz⟩ := selfRange_inv ids.length s h0 hn j
  have hsize := hsz L (by rw [Nat.add_comm, hj]; exact le_two_pow_ceilLog2 _)
  have hpow : ((2 ^ L : Nat) : Int) = 2 * ((2 ^ (L - 1) : Nat) : Int) := by
    obtain ⟨k, rfl⟩ : ∃ k, L = k + 1 := ⟨L - 1, by omega⟩
    simp only [Nat.add_sub_cancel]
    push_cast
    ring
  refine ⟨_, _, by rw [rangeLevel_eq_otherHalf ids self hnil j L hj, hfs], ?_⟩
  exact otherHalf_size s _ i1 i2 i3 _ (by rw [← hpow]; exact hsize)

theorem rangeLevel_size_bound_witness :
    ∃ mn mx : Int, rangeLevel [10, 20, 30, 40, 50] 40 ((2 : Nat) : Int) = Except.ok (mn, mx) ∧
      mx - mn + 1 ≤ ((2 ^ (2 - 1) : Nat) : Int) :=
  rangeLevel_size_bound [10, 20, 30, 40, 50] 40 3 (by decide) rfl 2 (by simp [Nat.clog])

/-- C19. For a duplicate-free list `ids` holding `self` at index `s`,
`rangeLevel ids self 0` does not fail and returns `(s + 1, s)`, a range with
`min = max + 1` that has no member. -/
theorem rangeLevel_level_zero (ids : List ID) (self : ID) (s : Nat) (hnd : ids.Nodup)
    (hs : ids[s]? = some self) :
    rangeLevel ids self 0 = Except.ok ((s : Int) + 1, (s : Int)) ∧
      ∀ i : Int, ¬ ((s : Int) + 1 ≤ i ∧ i ≤ (s : Int)) := by
  obtain ⟨hlt, hget⟩ := List.getElem?_eq_some.mp hs
  have hnil : ids ≠ [] := by intro h; subst h; simp at hlt
  have hfs := findSelf_of_getElem? ids self s hnd hs
  have h0 : (0 : Int) ≤ s := by omega
  have hn : (s : Int) < ids.length := by omega
  refine ⟨?_, fun i hi => by omega⟩
  have h := rangeLevel_eq_otherHalf ids self hnil (ceilLog2 ids.length) 0 (by omega)
  rw [hfs, selfRange_final ids.length s h0 hn] at h
  rw [Nat.cast_zero] at h
  rw [h]
  have hd := tdiv_two (s : Int) (s : Int) (by omega)
  have hmid : Int.tdiv ((s : Int) + (s : Int)) 2 = (s : Int) := by rw [hd]; omega
  simp only [otherHalf, hmid, gt_iff_lt, lt_self_iff_false, if_false]

theorem rangeLevel_level_zero_witness :
    rangeLevel [10, 20, 30] 20 0 = Except.ok (((1 : Nat) : Int) + 1, ((1 : Nat) : Int)) ∧
      ∀ i : Int, ¬ (((1 : Nat) : Int) + 1 ≤ i ∧ i ≤ ((1 : Nat) : Int)) :=
  rangeLevel_level_zero [10, 20, 30] 20 1 (by decide) rfl

/-! ## Completion of `verificationPriority` -/

/-- The loop panics when the peers outnumber the numbers left. -/
theorem assignLoop_error (self : ID) (numbers : List Int) : ∀ (rest : List ID) (i : Nat)
    (vp : PriorityMap), i ≤ numbers.length → numbers.length < (peersOf self rest).length + i →
    assignLoop self numbers rest i vp = Except.error "index out of range" := by
  intro rest
  induction rest with
  | nil => intro i vp h1 h2; simp [peersOf] at h2; omega
  | cons id rest ih =>
    intro i vp h1 h2
    by_cases e : id = self
    · subst e
      rw [peersOf_cons_self] at h2
      simp only [assignLoop, if_true]
      exact ih i vp h1 h2
    · rw [peersOf_cons_ne self id rest e] at h2
      simp only [List.length_cons] at h2
      by_cases hi : i < numbers.length
      · simp only [assignLoop, e, if_false, List.get?_eq_getElem?, List.getElem?_eq_getElem hi]
        exact ih (i + 1) _ (by omega) (by omega)
      · simp only [assignLoop, e, if_false, List.get?_eq_getElem?,
          List.getElem?_eq_none (by omega : numbers.length ≤ i)]

theorem peersOf_length_lt (self : ID) : ∀ ids : List ID, self ∈ ids →
    (peersOf self ids).length < ids.length := by
  intro ids
  induction ids with
  | nil => intro h; simp at h
  | cons id rest ih =>
    intro h
    by_cases e : id = self
    · subst e
      rw [peersOf_cons_self]
      have := List.length_filter_le (· != id) rest
      simp only [peersOf, List.length_cons]
      omega
    · rw [peersOf_cons_ne self id rest e]
      have hr : self ∈ rest := by
        rcases List.mem_cons.mp h with h | h
        · exact absurd h.symm e
        · exact h
      simp only [List.length_cons]
      have := ih hr
      omega

theorem peersOf_absent (self : ID) (ids : List ID) (h : self ∉ ids) : peersOf self ids = ids := by
  rw [peersOf, List.filter_eq_self]
  intro a ha
  have : a ≠ self := fun e => h (e ▸ ha)
  simpa using this

/-- C20. For every list `ids`, empty or not and with or without repetitions,
and a shuffle that permutes its slice, `verificationPriority` completes exactly
when `self` occurs in `ids`.  When `self` is absent from a non-empty `ids`, the
`n` ids are served from the `n - 1` shuffled numbers, whose only valid indices
are those below `n - 1`, and the read past them panics; for the empty list the
allocation of a slice of length `-1` panics. -/
theorem verificationPriority_completes_iff (sh : Shuffler) (hsh : sh.Permutes)
    (ids : List ID) (seed : Int) (self : ID) (level : Int) :
    ((∃ vp : PriorityMap, verificationPriority sh ids seed self level = Except.ok vp) ↔
        self ∈ ids) ∧
      (self ∉ ids → ids ≠ [] →
        verificationPriority sh ids seed self level = Except.error "index out of range" ∧
          (ids.filter (· != self)).length = ids.length ∧
          ∀ i : Nat, (sh Int (wrapInt64 (seed + level))
            ((List.range (ids.length - 1)).map Int.ofNat)).get? i = none ↔
              ids.length - 1 ≤ i) ∧
      (ids = [] →
        verificationPriority sh ids seed self level =
          Except.error "makeslice: len out of range") := by
  have hnl := shuffledNumbers_length sh hsh ids.length seed level
  have hdef : ids.length ≠ 0 → verificationPriority sh ids seed self level =
      assignLoop self (shuffledNumbers sh ids.length seed level) ids 0 PriorityMap.empty := by
    intro h
    simp only [verificationPriority, h, if_false, shuffledNumbers]
  have hempty : ids = [] → verificationPriority sh ids seed self level =
      Except.error "makeslice: len out of range" := by
    intro h; subst h; rfl
  have habsent : self ∉ ids → ids ≠ [] →
      verificationPriority sh ids seed self level = Except.error "index out of range" := by
    intro h hne
    have hlen : ids.length ≠ 0 := by simpa using hne
    rw [hdef hlen]
    apply assignLoop_error
    · omega
    · rw [peersOf_absent self ids h, hnl]; omega
  refine ⟨⟨?_, ?_⟩, ?_, hempty⟩
  · rintro ⟨vp, hvp⟩
    by_contra hc
    by_cases hne : ids = []
    · rw [hempty hne] at hvp; cases hvp
    · rw [habsent hc hne] at hvp; cases hvp
  · intro hmem
    have hlen : ids.length ≠ 0 := by
      intro h; rw [List.length_eq_zero] at h; subst h; simp at hmem
    rw [hdef hlen]
    have hlt := peersOf_length_lt self ids hmem
    exact ⟨_, assignLoop_eq self _ ids 0 PriorityMap.empty (by rw [hnl]; omega)⟩
  · intro h hne
    refine ⟨habsent h hne, ?_, ?_⟩
    · have := peersOf_absent self ids h
      rw [peersOf] at this
      rw [this]
    · intro i
      have hnl2 : (sh Int (wrapInt64 (seed + level))
          ((List.range (ids.length - 1)).map Int.ofNat)).length = ids.length - 1 := hnl
      rw [List.get?_eq_getElem?, List.getElem?_eq_none_iff, hnl2]

theorem verificationPriority_completes_iff_witness :
    ((∃ vp : PriorityMap,
          verificationPriority reverseShuffle [10, 20, 30, 40] 7 50 1 = Except.ok vp) ↔
        (50 : ID) ∈ ([10, 20, 30, 40] : List ID)) ∧
      verificationPriority reverseShuffle [10, 20, 30, 40] 7 50 1 =
        Except.error "index out of range" :=
  ⟨(verificationPriority_completes_iff reverseShuffle (fun _ _ xs => List.reverse_perm xs)
      [10, 20, 30, 40] 7 50 1).1,
    ((verificationPriority_completes_iff reverseShuffle (fun _ _ xs => List.reverse_perm xs)
      [10, 20, 30, 40] 7 50 1).2.1 (by decide) (by decide)).1⟩

/-! ## Symmetry of level membership -/

/-- An index in the half kept for `i` has the same half kept for it. -/
theorem keepHalf_congr (i j : Int) (r : Int × Int) (h0 : 0 ≤ r.1) (h1 : r.1 ≤ i) (h2 : i ≤ r.2)
    (hj : inRange (keepHalf i r) j) : keepHalf j r = keepHalf i r := by
  have hd := tdiv_two r.1 r.2 (by omega)
  unfold keepHalf inRange at *
  rw [hd] at hj ⊢
  by_cases c : i > (r.1 + r.2) / 2
  · rw [if_pos c] at hj ⊢
    simp only at hj
    rw [if_pos (by omega)]
  · rw [if_neg c] at hj ⊢
    simp only at hj
    rw [if_neg (by omega)]

/-- Two indices in the same kept range have the same kept range. -/
theorem selfRange_same (n : Nat) (i j : Int) (h0 : 0 ≤ i) (hn : i < n) : ∀ k : Nat,
    inRange (selfRange n i k) j → selfRange n j k = selfRange n i k := by
  intro k
  induction k with
  | zero => intro _; rfl
  | succ k ih =>
    intro h
    obtain ⟨a, b, c, _, _⟩ := selfRange_inv n i h0 hn k
    rw [selfRange_succ] at h
    have hk : inRange (selfRange n i k) j := (halves_spec i _ a b c j).1.mpr (Or.inl h)
    rw [selfRange_succ, selfRange_succ, ih hk]
    exact keepHalf_congr i j _ a b c h

/-- Being in the other half is mutual. -/
theorem otherHalf_symm (i j : Int) (r : Int × Int) (h0 : 0 ≤ r.1) (h1 : r.1 ≤ i) (h2 : i ≤ r.2)
    (hj : inRange (otherHalf i r) j) : inRange (otherHalf j r) i := by
  have hd := tdiv_two r.1 r.2 (by omega)
  unfold otherHalf inRange at *
  rw [hd] at hj ⊢
  by_cases c : i > (r.1 + r.2) / 2
  · rw [if_pos c] at hj
    simp only at hj
    rw [if_neg (by omega)]
    simp only
    omega
  · rw [if_neg c] at hj
    simp only at hj
    rw [if_pos (by omega)]
    simp only
    omega

theorem otherHalf_selfRange_symm (n : Nat) (i j : Int) (h0 : 0 ≤ i) (hn : i < n) (k : Nat)
    (h : inRange (otherHalf i (selfRange n i k)) j) :
    inRange (otherHalf j (selfRange n j k)) i := by
  obtain ⟨a, b, c, _, _⟩ := selfRange_inv n i h0 hn k
  have hk : inRange (selfRange n i k) j := (halves_spec i _ a b c j).1.mpr (Or.inr h)
  rw [selfRange_same n i j h0 hn k hk]
  exact otherHalf_symm i j _ a b c h

/-- C18. For a duplicate-free list `ids` holding `a` at index `i` and `b` at
index `j`, and a level `L` in `[1, maxLevel]`: `j` lies in the range
`rangeLevel ids a L` exactly when `i` lies in the range `rangeLevel ids b L`. -/
theorem rangeLevel_membership_symmetric (ids : List ID) (a b : ID) (i j : Nat)
    (hnd : ids.Nodup) (ha : ids[i]? = some a) (hb : ids[j]? = some b) (L : Int)
    (hL : 1 ≤ L ∧ L ≤ (Nat.clog 2 ids.length : Int)) :
    ∃ ra rb : Int × Int, rangeLevel ids a L = Except.ok ra ∧
      rangeLevel ids b L = Except.ok rb ∧
      ((ra.1 ≤ (j : Int) ∧ (j : Int) ≤ ra.2) ↔ (rb.1 ≤ (i : Int) ∧ (i : Int) ≤ rb.2)) := by
  obtain ⟨hilt, _⟩ := List.getElem?_eq_some.mp ha
  obtain ⟨hjlt, _⟩ := List.getElem?_eq_some.mp hb
  have hnil : ids ≠ [] := by intro h; subst h; simp at hilt
  have hfa := findSelf_of_getElem? ids a i hnd ha
  have hfb := findSelf_of_getElem? ids b j hnd hb
  have hM := (ceilLog2_eq_clog ids.length).symm
  rw [hM] at hL
  obtain ⟨l, rfl⟩ := Int.eq_ofNat_of_zero_le (by omega : 0 ≤ L)
  obtain ⟨k, hk⟩ : ∃ k, l + k = ceilLog2 ids.length := ⟨ceilLog2 ids.length - l, by omega⟩
  refine ⟨_, _, by rw [rangeLevel_eq_otherHalf ids a hnil k l hk, hfa],
    by rw [rangeLevel_eq_otherHalf ids b hnil k l hk, hfb], ?_⟩
  constructor
  · exact otherHalf_selfRange_symm ids.length i j (by omega) (by omega) k
  · exact otherHalf_selfRange_symm ids.length j i (by omega) (by omega) k

theorem rangeLevel_membership_symmetric_witness :
    ∃ ra rb : Int × Int, rangeLevel [10, 20, 30, 40, 50] 20 2 = Except.ok ra ∧
      rangeLevel [10, 20, 30, 40, 50] 30 2 = Except.ok rb ∧
      ((ra.1 ≤ ((2 : Nat) : Int) ∧ ((2 : Nat) : Int) ≤ ra.2) ↔
        (rb.1 ≤ ((1 : Nat) : Int) ∧ ((1 : Nat) : Int) ≤ rb.2)) :=
  rangeLevel_membership_symmetric [10, 20, 30, 40, 50] 20 30 1 2 (by decide) rfl rfl 2
    (by simp [Nat.clog])

/-! ## Powers of two -/

theorem xor_one_odd (q : Nat) : (2 * q + 1) ^^^ 1 = 2 * q := by
  apply Nat.eq_of_testBit_eq
  intro i
  rw [Nat.testBit_xor]
  cases i with
  | zero => simp [Nat.testBit_zero]; omega
  | succ i =>
    rw [Nat.testBit_succ, Nat.testBit_succ, Nat.testBit_succ]
    have h1 : (2 * q + 1) / 2 = q := by omega
    have h2 : (2 * q) / 2 = q := by omega
    simp [h1, h2]

theorem xor_one_even (q : Nat) : (2 * q) ^^^ 1 = 2 * q + 1 := by
  apply Nat.eq_of_testBit_eq
  intro i
  rw [Nat.testBit_xor]
  cases i with
  | zero => simp [Nat.testBit_zero]; omega
  | succ i =>
    rw [Nat.testBit_succ, Nat.testBit_succ, Nat.testBit_succ]
    have h1 : (2 * q + 1) / 2 = q := by omega
    have h2 : (2 * q) / 2 = q := by omega
    simp [h1, h2]

theorem ceilLog2_two_pow (m : Nat) : ceilLog2 (2 ^ m) = m := by
  rw [ceilLog2_eq_clog, Nat.clog_pow 2 m (by norm_num)]

/-- One bisection of an aligned block `[2 * x, 2 * x + 2 * p - 1]`. -/
theorem keepHalf_block (s x p : Int) (hp : 1 ≤ p) (hx : 0 ≤ x) :
    keepHalf s (2 * x, 2 * x + 2 * p - 1) =
      if s > 2 * x + p - 1 then (2 * x + p, 2 * x + 2 * p - 1) else (2 * x, 2 * x + p - 1) := by
  have hd := tdiv_two (2 * x) (2 * x + 2 * p - 1) (by omega)
  have hmid : Int.tdiv (2 * x + (2 * x + 2 * p - 1)) 2 = 2 * x + p - 1 := by rw [hd]; omega
  simp only [keepHalf, hmid]
  split
  · congr 1; omega
  · rfl

theorem otherHalf_block (s x p : Int) (hp : 1 ≤ p) (hx : 0 ≤ x) :
    otherHalf s (2 * x, 2 * x + 2 * p - 1) =
      if s > 2 * x + p - 1 then (2 * x, 2 * x + p - 1) else (2 * x + p, 2 * x + 2 * p - 1) := by
  have hd := tdiv_two (2 * x) (2 * x + 2 * p - 1) (by omega)
  have hmid : Int.tdiv (2 * x + (2 * x + 2 * p - 1)) 2 = 2 * x + p - 1 := by rw [hd]; omega
  simp only [otherHalf, hmid]
  split
  · rfl
  · congr 1; omega

/-- For `n = 2 ^ m` the range kept after `j` bisections is the aligned block of
`2 ^ (m - j)` indices that contains `s`. -/
theorem selfRange_two_pow (m s : Nat) (hs : s < 2 ^ m) : ∀ j : Nat, j ≤ m →
    ∃ q : Nat, selfRange (2 ^ m) (s : Int) j =
        (((q * 2 ^ (m - j) : Nat) : Int), ((q * 2 ^ (m - j) : Nat) : Int) +
          ((2 ^ (m - j) : Nat) : Int) - 1) ∧
      q * 2 ^ (m - j) ≤ s ∧ s < q * 2 ^ (m - j) + 2 ^ (m - j) := by
  intro j
  induction j with
  | zero =>
    intro _
    refine ⟨0, ?_, by omega, by simpa using hs⟩
    simp [selfRange]
  | succ j ih =>
    intro hj
    obtain ⟨q, hR, hlo, hhi⟩ := ih (by omega)
    have hpow : 2 ^ (m - j) = 2 * 2 ^ (m - (j + 1)) := by
      have : m - j = (m - (j + 1)) + 1 := by omega
      rw [this, pow_succ]; ring
    have hpos : 1 ≤ 2 ^ (m - (j + 1)) := Nat.one_le_two_pow
    rw [hpow] at hR hlo hhi
    generalize 2 ^ (m - (j + 1)) = P at hR hlo hhi hpos ⊢
    have hqX : q * (2 * P) = 2 * (q * P) := by ring
    rw [hqX] at hR hlo hhi
    have hR2 : selfRange (2 ^ m) (s : Int) j =
        (2 * ((q * P : Nat) : Int), 2 * ((q * P : Nat) : Int) + 2 * (P : Int) - 1) := by
      rw [hR]; push_cast; rfl
    rw [selfRange_succ, hR2, keepHalf_block _ _ _ (by exact_mod_cast hpos) (by positivity)]
    by_cases c : (s : Int) > 2 * ((q * P : Nat) : Int) + (P : Int) - 1
    · rw [if_pos c]
      have e : (2 * q + 1) * P = 2 * (q * P) + P := by ring
      refine ⟨2 * q + 1, ?_, ?_, ?_⟩
      · rw [e]; push_cast; congr 1; omega
      · rw [e]; omega
      · rw [e]; omega
    · rw [if_neg c]
      have e : (2 * q) * P = 2 * (q * P) := by ring
      refine ⟨2 * q, ?_, ?_, ?_⟩
      · rw [e]; push_cast; rfl
      · rw [e]; omega
      · rw [e]; omega

/-- For `n = 2 ^ m` the range of level `L` is the sibling of the aligned block
of `2 ^ (L - 1)` indices that contains `s`. -/
theorem rangeLevel_two_pow_block (ids : List ID) (self : ID) (s : Nat) (hnd : ids.Nodup)
    (hs : ids[s]? = some self) (m : Nat) (hlen : ids.length = 2 ^ m) (L : Nat)
    (hL : 1 ≤ L ∧ L ≤ m) :
    rangeLevel ids self (L : Int) =
      Except.ok (((((s / 2 ^ (L - 1)) ^^^ 1) * 2 ^ (L - 1) : Nat) : Int),
        ((((s / 2 ^ (L - 1)) ^^^ 1) * 2 ^ (L - 1) : Nat) : Int) +
          ((2 ^ (L - 1) : Nat) : Int) - 1) := by
  obtain ⟨hlt, hget⟩ := List.getElem?_eq_some.mp hs
  have hnil : ids ≠ [] := by intro h; subst h; simp at hlt
  have hfs := findSelf_of_getElem? ids self s hnd hs
  have hj : L + (m - L) = ceilLog2 ids.length := by rw [hlen, ceilLog2_two_pow]; omega
  rw [rangeLevel_eq_otherHalf ids self hnil (m - L) L hj, hfs, hlen]
  obtain ⟨q, hR, hlo, hhi⟩ := selfRange_two_pow m s (hlen ▸ hlt) (m - L) (by omega)
  have hmL : m - (m - L) = (L - 1) + 1 := by omega
  rw [hmL, pow_succ] at hR hlo hhi
  have hpos : 1 ≤ 2 ^ (L - 1) := Nat.one_le_two_pow
  generalize 2 ^ (L - 1) = P at hR hlo hhi hpos ⊢
  have hqX : q * (P * 2) = 2 * (q * P) := by ring
  rw [hqX] at hR hlo hhi
  have hR2 : selfRange (2 ^ m) (s : Int) (m - L) =
      (2 * ((q * P : Nat) : Int), 2 * ((q * P : Nat) : Int) + 2 * (P : Int) - 1) := by
    rw [hR]; push_cast; congr 1; omega
  rw [hR2, otherHalf_block _ _ _ (by exact_mod_cast hpos) (by positivity)]
  by_cases c : (s : Int) > 2 * ((q * P : Nat) : Int) + (P : Int) - 1
  · rw [if_pos c]
    have e : (2 * q + 1) * P = 2 * (q * P) + P := by ring
    have e2 : (2 * q + 1 + 1) * P = 2 * (q * P) + P + P := by ring
    have hdiv : s / P = 2 * q + 1 :=
      Nat.div_eq_of_lt_le (by rw [e]; omega) (by rw [e2]; omega)
    have e3 : (2 * q) * P = 2 * (q * P) := by ring
    rw [hdiv, xor_one_odd, e3]
    push_cast
    rfl
  · rw [if_neg c]
    have e : (2 * q) * P = 2 * (q * P) := by ring
    have e2 : (2 * q + 1) * P = 2 * (q * P) + P := by ring
    have hdiv : s / P = 2 * q :=
      Nat.div_eq_of_lt_le (by rw [e]; omega) (by rw [e2]; omega)
    rw [hdiv, xor_one_even, e2]
    push_cast
    congr 2
    omega

/-- C16. When `ids` is duplicate-free of length `2 ^ m` and holds `self` at
index `s`, the range of a level `L` in `[1, m]` is the aligned block of
`2 ^ (L - 1)` indices that is the sibling of the block of `s`:
`min = ((s / 2 ^ (L - 1)) xor 1) * 2 ^ (L - 1)` and `max = min + 2 ^ (L - 1) - 1`.
In particular level `1` is the single index `s xor 1` and level `m` is the half
of `[0, n - 1]` that does not contain `s`. -/
theorem rangeLevel_two_pow (ids : List ID) (self : ID) (s : Nat) (hnd : ids.Nodup)
    (hs : ids[s]? = some self) (m : Nat) (hlen : ids.length = 2 ^ m) (L : Nat)
    (hL : 1 ≤ L ∧ L ≤ m) :
    rangeLevel ids self (L : Int) =
        Except.ok (((((s / 2 ^ (L - 1)) ^^^ 1) * 2 ^ (L - 1) : Nat) : Int),
          ((((s / 2 ^ (L - 1)) ^^^ 1) * 2 ^ (L - 1) : Nat) : Int) +
            ((2 ^ (L - 1) : Nat) : Int) - 1) ∧
      rangeLevel ids self 1 = Except.ok (((s ^^^ 1 : Nat) : Int), ((s ^^^ 1 : Nat) : Int)) ∧
      rangeLevel ids self (m : Int) =
        Except.ok (if s < 2 ^ (m - 1) then (((2 ^ (m - 1) : Nat) : Int), ((2 ^ m : Nat) : Int) - 1)
          else (0, ((2 ^ (m - 1) : Nat) : Int) - 1)) := by
  refine ⟨rangeLevel_two_pow_block ids self s hnd hs m hlen L hL, ?_, ?_⟩
  · have h := rangeLevel_two_pow_block ids self s hnd hs m hlen 1 ⟨le_refl 1, by omega⟩
    simpa using h
  · have h := rangeLevel_two_pow_block ids self s hnd hs m hlen m ⟨by omega, le_refl m⟩
    rw [h]
    obtain ⟨hlt, _⟩ := List.getElem?_eq_some.mp hs
    rw [hlen] at hlt
    have hpow : 2 ^ m = 2 * 2 ^ (m - 1) := by
      obtain ⟨k, rfl⟩ : ∃ k, m = k + 1 := ⟨m - 1, by omega⟩
      simp only [Nat.add_sub_cancel, pow_succ]; ring
    rw [hpow] at hlt ⊢
    generalize 2 ^ (m - 1) = P at hlt ⊢
    by_cases c : s < P
    · rw [if_pos c, Nat.div_eq_of_lt c]
      have e : (0 ^^^ 1) * P = P := by simp
      rw [e]
      push_cast
      congr 2
      omega
    · rw [if_neg c]
      have hdiv : s / P = 1 := Nat.div_eq_of_lt_le (by omega) (by omega)
      have e : (1 ^^^ 1) * P = 0 := by simp
      rw [hdiv, e]
      push_cast
      congr 2
      omega

theorem rangeLevel_two_pow_witness :
    rangeLevel [10, 20, 30, 40, 50, 60, 70, 80] 60 ((2 : Nat) : Int) =
        Except.ok (((((5 / 2 ^ (2 - 1)) ^^^ 1) * 2 ^ (2 - 1) : Nat) : Int),
          ((((5 / 2 ^ (2 - 1)) ^^^ 1) * 2 ^ (2 - 1) : Nat) : Int) +
            ((2 ^ (2 - 1) : Nat) : Int) - 1) ∧
      rangeLevel [10, 20, 30, 40, 50, 60, 70, 80] 60 1 =
        Except.ok (((5 ^^^ 1 : Nat) : Int), ((5 ^^^ 1 : Nat) : Int)) ∧
      rangeLevel [10, 20, 30, 40, 50, 60, 70, 80] 60 ((3 : Nat) : Int) =
        Except.ok (if 5 < 2 ^ (3 - 1) then (((2 ^ (3 - 1) : Nat) : Int), ((2 ^ 3 : Nat) : Int) - 1)
          else (0, ((2 ^ (3 - 1) : Nat) : Int) - 1)) :=
  rangeLevel_two_pow [10, 20, 30, 40, 50, 60, 70, 80] 60 5 (by decide) rfl 3 rfl 2
    (by decide)

/-! ## The values of `contributionPriority` -/

/-- Leaving out the id at index `i` of a duplicate-free list. -/
theorem peersOf_eq_eraseIdx (ids : List ID) (hnd : ids.Nodup) (i : Nat) (p : ID)
    (hp : ids[i]? = some p) : peersOf p ids = ids.eraseIdx i := by
  obtain ⟨hlt, hget⟩ := List.getElem?_eq_some.mp hp
  rw [peersOf, ← hnd.erase_eq_filter p, ← hget, hnd.erase_getElem i hlt]

/-- The entry of `contributionPriority` for the peer at index `i`: the shuffled
number at position `s - 1` when the peer precedes `self`, at position `s` when
it follows. -/
theorem contributeAll_value (sh : Shuffler) (hsh : sh.Permutes) (ids : List ID) (seed : Int)
    (self : ID) (level : Int) (s : Nat) (hnd : ids.Nodup) (hs : ids[s]? = some self)
    (i : Nat) (p : ID) (hp : ids[i]? = some p) (his : i ≠ s) :
    contributeAll sh ids seed self level ids PriorityMap.empty p =
      some (((shuffledNumbers sh ids.length seed level)[if i < s then s - 1 else s]?).getD 0) := by
  obtain ⟨hslt, hsget⟩ := List.getElem?_eq_some.mp hs
  obtain ⟨hilt, higet⟩ := List.getElem?_eq_some.mp hp
  have hpmem : p ∈ ids := by rw [← higet]; exact List.getElem_mem hilt
  have hpne : p ≠ self := by
    intro e
    rw [e] at hp
    exact his (nodup_getElem?_inj ids hnd i s self hp hs)
  have hnl := shuffledNumbers_length sh hsh ids.length seed level
  have hk : (if i < s then s - 1 else s) < (shuffledNumbers sh ids.length seed level).length := by
    rw [hnl]; split <;> omega
  have hself : (peersOf p ids)[if i < s then s - 1 else s]? = some self := by
    rw [peersOf_eq_eraseIdx ids hnd i p hp, List.getElem?_eraseIdx]
    by_cases c : i < s
    · rw [if_pos c, if_neg (by omega)]
      have : s - 1 + 1 = s := by omega
      rw [this]; exact hs
    · rw [if_neg c, if_pos (by omega)]
      exact hs
  have hval := assignAll_getElem? (peersOf p ids) (shuffledNumbers sh ids.length seed level)
    PriorityMap.empty _ self _ (peersOf_nodup p ids hnd) hself (List.getElem?_eq_getElem hk)
  have hval2 : vpOf sh ids seed p level self =
      some ((shuffledNumbers sh ids.length seed level)[if i < s then s - 1 else s]) := hval
  rw [contributeAll_apply, if_pos ⟨hpmem, hpne⟩, List.getElem?_eq_getElem hk]
  simp [PriorityMap.get, hval2]

/-- C17. For a duplicate-free list `ids` holding `self` at index `s`, and a
shuffle that permutes its slice, the map returned by `contributionPriority` has
one common value on all peers that precede `self` in `ids` (the shuffled number
at position `s - 1`) and one common value on all peers that follow `self` (the
shuffled number at position `s`); with four or more ids two different peers
receive the same value, so the map is not injective. -/
theorem contributionPriority_two_values (sh : Shuffler) (hsh : sh.Permutes) (ids : List ID)
    (seed : Int) (self : ID) (level : Int) (s : Nat) (hnd : ids.Nodup)
    (hs : ids[s]? = some self) :
    ∃ cp : PriorityMap, contributionPriority sh ids seed self level = Except.ok cp ∧
      ∃ lo hi : Int,
        (∀ (i : Nat) (p : ID), i < s → ids[i]? = some p → cp p = some lo) ∧
        (∀ (i : Nat) (p : ID), s < i → ids[i]? = some p → cp p = some hi) ∧
        (4 ≤ ids.length → ∃ p q : ID, p ∈ ids ∧ q ∈ ids ∧ p ≠ self ∧ q ≠ self ∧ p ≠ q ∧
          cp p = cp q) := by
  have hbefore : ∀ (i : Nat) (p : ID), i < s → ids[i]? = some p →
      contributeAll sh ids seed self level ids PriorityMap.empty p =
        some (((shuffledNumbers sh ids.length seed level)[s - 1]?).getD 0) := by
    intro i p hi hp
    have h := contributeAll_value sh hsh ids seed self level s hnd hs i p hp (by omega)
    rw [if_pos hi] at h
    exact h
  have hafter : ∀ (i : Nat) (p : ID), s < i → ids[i]? = some p →
      contributeAll sh ids seed self level ids PriorityMap.empty p =
        some (((shuffledNumbers sh ids.length seed level)[s]?).getD 0) := by
    intro i p hi hp
    have h := contributeAll_value sh hsh ids seed self level s hnd hs i p hp (by omega)
    rw [if_neg (by omega)] at h
    exact h
  have hpick : ∀ (a b : Nat), a < b → b < ids.length → a ≠ s → b ≠ s →
      ∃ p q : ID, ids[a]? = some p ∧ ids[b]? = some q ∧ p ∈ ids ∧ q ∈ ids ∧
        p ≠ self ∧ q ≠ self ∧ p ≠ q := by
    intro a b hab hb has hbs
    have ha : a < ids.length := by omega
    refine ⟨ids[a], ids[b], List.getElem?_eq_getElem ha, List.getElem?_eq_getElem hb,
      List.getElem_mem ha, List.getElem_mem hb, ?_, ?_, ?_⟩
    · intro e
      exact has (nodup_getElem?_inj ids hnd a s self (e ▸ List.getElem?_eq_getElem ha) hs)
    · intro e
      exact hbs (nodup_getElem?_inj ids hnd b s self (e ▸ List.getElem?_eq_getElem hb) hs)
    · intro e
      have := nodup_getElem?_inj ids hnd a b ids[b] (e ▸ List.getElem?_eq_getElem ha)
        (List.getElem?_eq_getElem hb)
      omega
  refine ⟨_, contributionLoop_eq sh hsh ids seed self level hnd ids PriorityMap.empty
    (fun _ h => h), _, _, hbefore, hafter, ?_⟩
  intro hlen
  by_cases c : 2 ≤ s
  · obtain ⟨p, q, hp, hq, hpm, hqm, hps, hqs, hpq⟩ := hpick 0 1 (by omega) (by omega)
      (by omega) (by omega)
    exact ⟨p, q, hpm, hqm, hps, hqs, hpq,
      (hbefore 0 p (by omega) hp).trans (hbefore 1 q (by omega) hq).symm⟩
  · obtain ⟨p, q, hp, hq, hpm, hqm, hps, hqs, hpq⟩ := hpick 2 3 (by omega) (by omega)
      (by omega) (by omega)
    exact ⟨p, q, hpm, hqm, hps, hqs, hpq,
      (hafter 2 p (by omega) hp).trans (hafter 3 q (by omega) hq).symm⟩

theorem contributionPriority_two_values_witness :
    ∃ cp : PriorityMap,
      contributionPriority reverseShuffle [10, 20, 30, 40] 7 20 1 = Except.ok cp ∧
      ∃ lo hi : Int,
        (∀ (i : Nat) (p : ID), i < 1 → ([10, 20, 30, 40] : List ID)[i]? = some p →
          cp p = some lo) ∧
        (∀ (i : Nat) (p : ID), 1 < i → ([10, 20, 30, 40] : List ID)[i]? = some p →
          cp p = some hi) ∧
        (4 ≤ ([10, 20, 30, 40] : List ID).length →
          ∃ p q : ID, p ∈ ([10, 20, 30, 40] : List ID) ∧ q ∈ ([10, 20, 30, 40] : List ID) ∧
            p ≠ 20 ∧ q ≠ 20 ∧ p ≠ q ∧ cp p = cp q) :=
  contributionPriority_two_values reverseShuffle (fun _ _ xs => List.reverse_perm xs)
    [10, 20, 30, 40] 7 20 1 1 (by decide) rfl

end handel
